import Mathlib

/-!
Verification of the s5-utils-js codec layer against its specification.

The development shallowly embeds the TypeScript sources:
  * `src/src/utils/tools.ts` (prefix encoders/decoders and the six
    cross-encoding converters),
  * `src/src/utils/blake3tools.ts` (multihash and CID assembly/extraction),
  * the compiled `basetools` module (base58 Bitcoin, base32 RFC 4648 and
    base64url codecs).

Buffers (`Buffer`/`Uint8Array`) are embedded as `List Nat` whose elements are
byte values, and JavaScript strings as `List Char`.  JavaScript numbers are
embedded as `Int` where the source can produce negative intermediate values
(the 32-bit wrap-around of the `>>`, `<<` and `|` operators is made explicit
through `jsToInt32`/`toUint32`); loops are translated into structural
recursion, using an explicit fuel argument exactly where the source loop's
measure (a numeric carry) is not structural — the fuel is chosen large enough
that the simulated loop never exhausts it.  Functions that can `throw` return
an `Option`, with `none` for the thrown exception.
-/

/-! ## JavaScript numeric primitives -/

/-- ECMAScript `ToInt32`: reduce an integer modulo `2^32` into
`[-2^31, 2^31)`.  Applied by the bitwise operators `>>`, `<<`, `|`. -/
def jsToInt32 (v : Int) : Int :=
  let m := v % 4294967296
  if m < 2147483648 then m else m - 4294967296

/-- ECMAScript `ToUint32`: reduce an integer modulo `2^32` into `[0, 2^32)`,
returned as a natural number.  Applied by the `>>>` operator. -/
def toUint32 (v : Int) : Nat :=
  (v % 4294967296).toNat

/-- JavaScript `value >> 8`: `ToInt32` followed by an arithmetic right shift,
which is floor division by 256. -/
def jsShr8 (v : Int) : Int :=
  (jsToInt32 v).fdiv 256

/-- JavaScript `value << 5` as used on the base32 decoder's accumulator:
`ToInt32` of the multiplication by 32 (`ToInt32 (32 * v)` equals
`ToInt32 (32 * ToInt32 v)` because they agree modulo `2^32`). -/
def jsShl5 (v : Int) : Int :=
  jsToInt32 (32 * v)

/-! ## JavaScript string primitives (ASCII fragment used by the sources) -/

/-- ASCII lowercase letter test, the `/[a-z]/` character class. -/
def isLowerAlpha (c : Char) : Bool :=
  97 ≤ c.toNat && c.toNat ≤ 122

/-- ASCII uppercase letter test, the `/[A-Z]/` character class. -/
def isUpperAlpha (c : Char) : Bool :=
  65 ≤ c.toNat && c.toNat ≤ 90

/-- `String.prototype.toLowerCase` on one ASCII character. -/
def jsToLowerChar (c : Char) : Char :=
  if isUpperAlpha c then Char.ofNat (c.toNat + 32) else c

/-- `String.prototype.toUpperCase` on one ASCII character. -/
def jsToUpperChar (c : Char) : Char :=
  if isLowerAlpha c then Char.ofNat (c.toNat - 32) else c

/-- `String.prototype.toLowerCase` (the sources only apply it to ASCII). -/
def jsToLowerStr (s : List Char) : List Char :=
  s.map jsToLowerChar

/-- `String.prototype.toUpperCase` (the sources only apply it to ASCII). -/
def jsToUpperStr (s : List Char) : List Char :=
  s.map jsToUpperChar

/-- `String.prototype.indexOf` for a single character: index of the first
occurrence, `-1` when absent. -/
def jsIndexOfAux : List Char → Char → Nat → Int
  | [], _, _ => -1
  | c :: cs, ch, i => if c = ch then (i : Int) else jsIndexOfAux cs ch (i + 1)

/-- `str.indexOf(ch)` over the embedding of strings as `List Char`. -/
def jsIndexOf (l : List Char) (ch : Char) : Int :=
  jsIndexOfAux l ch 0

/-! ## Positional-value helpers used by the correctness proofs -/

/-- Value of a little-endian digit list in base `B`
(`ofB B [d0, d1, d2] = d0 + B*d1 + B^2*d2`). -/
def ofB (B : Nat) : List Nat → Nat
  | [] => 0
  | d :: ds => d + B * ofB B ds

/-- Value of a big-endian digit list in base `B`, by Horner's rule —
this is the accumulation order of all the loops in the sources. -/
def beV (B : Nat) (L : List Nat) : Nat :=
  L.foldl (fun a d => B * a + d) 0

/-! ## basetools: base58 (Bitcoin alphabet) -/

/-- The base58 Bitcoin alphabet, the source's exported `ALPHABET`. -/
def ALPHABET : List Char :=
  "123456789ABCDEFGHJKLMNPQRSTUVWXYZabcdefghijkmnopqrstuvwxyz".toList

/-- The source's `while (carry) { digits.push(carry % 58); carry = (carry / 58) | 0 }`.
The fuel argument bounds the iteration count; `fuel = carry` always
suffices because the carry strictly decreases (`c / 58 < c` for `c > 0`),
so the `fuel = 0, c > 0` branch is never reached from `pushCarry58`. -/
def pushCarry58Aux : Nat → Nat → List Nat
  | _, 0 => []
  | 0, _ + 1 => []
  | fuel + 1, c + 1 => (c + 1) % 58 :: pushCarry58Aux fuel ((c + 1) / 58)

/-- Push the remaining carry as little-endian base58 digits. -/
def pushCarry58 (c : Nat) : List Nat :=
  pushCarry58Aux c c

/-- The source's carry-propagation pass over the digit array
(`digits[j] += carry; carry = (digits[j] / 58) | 0; digits[j] %= 58`),
followed by pushing the final carry. -/
def carryPass58 : List Nat → Nat → List Nat
  | [], carry => pushCarry58 carry
  | d :: ds, carry => (d + carry) % 58 :: carryPass58 ds ((d + carry) / 58)

/-- One iteration of `base58BitcoinEncode`'s outer loop on digit state:
multiply every digit by 256 (`digits[j] <<= 8`), add the incoming byte to
`digits[0]`, then normalize with a carry pass.  The `[]` branch is
unreachable (the digit array starts as `[0]` and never shrinks). -/
def base58EncodeStep (digits : List Nat) (byte : Nat) : List Nat :=
  match digits with
  | [] => carryPass58 [byte] 0
  | d :: ds => carryPass58 ((d * 256 + byte) :: ds.map (· * 256)) 0

/-- The source's trailing-zero strip
`while (digits[digits.length - 1] === 0) digits.pop()`
(on an empty array `digits[-1]` is `undefined`, so the loop stops). -/
def dropTrailingZeros (L : List Nat) : List Nat :=
  (L.reverse.dropWhile (· = 0)).reverse

/-- `base58BitcoinEncode` from the compiled `basetools` module: big-integer
base conversion of the byte sequence (interpreted big-endian) into base58
digits, then alphabet lookup most-significant first. -/
def base58BitcoinEncode (bytes : List Nat) : List Char :=
  let digits := bytes.foldl base58EncodeStep [0]
  ((dropTrailingZeros digits).reverse).map (fun d => ALPHABET.getD d '1')

/-- The source's `while (value > 0) { bytes.push(value & 0xff); value >>= 8 }`,
fuelled like `pushCarry58Aux`. -/
def pushCarry256Aux : Nat → Nat → List Nat
  | _, 0 => []
  | 0, _ + 1 => []
  | fuel + 1, c + 1 => (c + 1) % 256 :: pushCarry256Aux fuel ((c + 1) / 256)

/-- Push the remaining value as little-endian bytes. -/
def pushCarry256 (c : Nat) : List Nat :=
  pushCarry256Aux c c

/-- The source's inner loop of `base58BitcoinDecode`
(`value += bytes[j] * 58; bytes[j] = value & 0xff; value >>= 8`):
multiply the little-endian byte array by 58 and add `value`, with carry. -/
def base58DecodeStep : List Nat → Nat → List Nat
  | [], v => pushCarry256 v
  | bb :: bs, v => (v + bb * 58) % 256 :: base58DecodeStep bs ((v + bb * 58) / 256)

/-- Outer loop of `base58BitcoinDecode`: look up each character in the
alphabet (throwing — `none` — on `-1`) and fold it into the byte array. -/
def base58DecodeLoop : List Char → List Nat → Option (List Nat)
  | [], bytes => some bytes.reverse
  | ch :: rest, bytes =>
    let value := jsIndexOf ALPHABET ch
    if value = -1 then none
    else base58DecodeLoop rest (base58DecodeStep bytes value.toNat)

/-- `base58BitcoinDecode` from the compiled `basetools` module; `none` embeds
the thrown `Invalid Base58Bitcoin string` error. -/
def base58BitcoinDecode (str : List Char) : Option (List Nat) :=
  base58DecodeLoop str []

/-! ## basetools: base32 (RFC 4648 alphabet) -/

/-- The RFC 4648 base32 alphabet, the source's exported `BASE32_ALPHABET`. -/
def BASE32_ALPHABET : List Char :=
  "ABCDEFGHIJKLMNOPQRSTUVWXYZ234567".toList

/-- The encoder's inner `while (bits >= 5)` loop, emitting 5-bit digit values
most-significant first (`(value >>> (bits - 5)) & 31`); the fuel bounds the
iteration count (`fuel = bits` always suffices since `bits` drops by 5).
The accumulator is kept as an unbounded natural number: the JavaScript
`value` wraps modulo `2^32`, but every extraction reads bits `[bits-5, bits)`
with `bits ≤ 12 < 32`, so the wrap is unobservable. -/
def base32FlushD : Nat → Nat → Nat → List Nat
  | 0, _, _ => []
  | fuel + 1, v, bits =>
    if 5 ≤ bits then (v / 2 ^ (bits - 5)) % 32 :: base32FlushD fuel v (bits - 5)
    else []

/-- The encoder's outer loop over input bytes, producing 5-bit digit values.
After the inner `while` the remaining bit count is `(bits + 8) % 5`; the
final `if (bits > 0)` pads the leftover bits with zeros
(`(value << (5 - bits)) & 31`). -/
def base32EncodeLoopD : List Nat → Nat → Nat → List Nat
  | [], v, bits => if 0 < bits then [(v * 2 ^ (5 - bits)) % 32] else []
  | d :: ds, v, bits =>
    base32FlushD (bits + 8) (v * 256 + d) (bits + 8) ++
      base32EncodeLoopD ds (v * 256 + d) ((bits + 8) % 5)

/-- `base32rfcEncode` from the compiled `basetools` module: 8-to-5 bit
packing, alphabet lookup, no padding characters. -/
def base32rfcEncode (data : List Nat) : List Char :=
  (base32EncodeLoopD data 0 0).map (fun d => BASE32_ALPHABET.getD d 'A')

/-- The decoder's loop over characters.  `BASE32_ALPHABET.indexOf(c)` is `-1`
for characters outside the alphabet and the source folds that `-1` into the
accumulator via `(value << 5) | charIndex` without any validation
(`x | -1 = -1`; for `charIndex ≥ 0` the `|` is addition because the shifted
accumulator has zero low bits).  A byte `(value >>> (bits - 8)) & 255` is
emitted whenever 8 bits are available. -/
def base32DecodeLoop : List Char → Int → Nat → List Nat
  | [], _, _ => []
  | ch :: rest, value, bits =>
    let ci : Int := jsIndexOf BASE32_ALPHABET ch
    let v : Int := if ci = -1 then -1 else jsShl5 value + ci
    if 8 ≤ bits + 5 then
      (toUint32 v / 2 ^ (bits + 5 - 8)) % 256 :: base32DecodeLoop rest v (bits + 5 - 8)
    else base32DecodeLoop rest v (bits + 5)

/-- `base32rfcDecode` from the compiled `basetools` module: 5-to-8 bit
unpacking; trailing bits that do not fill a byte are discarded, and no
character validation is performed (see `base32DecodeLoop`). -/
def base32rfcDecode (encoded : List Char) : List Nat :=
  base32DecodeLoop encoded 0 0

/-! ## basetools: base64url -/

/-- The standard base64 alphabet used by `btoa`/`atob`. -/
def B64_ALPHABET : List Char :=
  "ABCDEFGHIJKLMNOPQRSTUVWXYZabcdefghijklmnopqrstuvwxyz0123456789+/".toList

/-- The platform builtin `btoa(String.fromCharCode(...input))`: standard
base64 of a byte sequence, with `=` padding.  Modelled by its specification
(RFC 4648 §4); inputs are always `Uint8Array` bytes, i.e. below 256. -/
def btoa : List Nat → List Char
  | [] => []
  | [a] =>
    [B64_ALPHABET.getD (a / 4) 'A', B64_ALPHABET.getD (a % 4 * 16) 'A', '=', '=']
  | [a, b] =>
    [B64_ALPHABET.getD (a / 4) 'A', B64_ALPHABET.getD (a % 4 * 16 + b / 16) 'A',
     B64_ALPHABET.getD (b % 16 * 4) 'A', '=']
  | a :: b :: c :: rest =>
    B64_ALPHABET.getD (a / 4) 'A' :: B64_ALPHABET.getD (a % 4 * 16 + b / 16) 'A' ::
      B64_ALPHABET.getD (b % 16 * 4 + c / 64) 'A' :: B64_ALPHABET.getD (c % 64) 'A' ::
      btoa rest

/-- The character swap of `base64urlEncode`: `+` to `-` and `/` to `_`. -/
def b64UrlSwap (c : Char) : Char :=
  if c = '+' then '-' else if c = '/' then '_' else c

/-- The inverse swap applied by `base64urlDecode` before calling `atob`. -/
def b64UrlSwapBack (c : Char) : Char :=
  if c = '-' then '+' else if c = '_' then '/' else c

/-- `base64urlEncode` from the compiled `basetools` module:
`btoa(...)` with every `=` removed and `+`, `/` replaced by `-`, `_`. -/
def base64urlEncode (input : List Nat) : List Char :=
  ((btoa input).filter (· ≠ '=')).map b64UrlSwap

/-- Padding removal of the platform builtin `atob` (WHATWG forgiving-base64):
when the length is a multiple of four, up to two trailing `=` are removed. -/
def stripAtobPadding (s : List Char) : List Char :=
  if s.length % 4 = 0 then
    match s.reverse with
    | c1 :: c2 :: rest =>
      if c1 = '=' then (if c2 = '=' then rest.reverse else (c2 :: rest).reverse) else s
    | [c1] => if c1 = '=' then [] else s
    | [] => s
  else s

/-- Bit-collection loop of `atob`: 6 bits per character, emit every 8 bits,
fail (`none`) on a character outside the base64 alphabet, discard leftover
bits.  As in `base32FlushD` the accumulator is an unbounded natural number;
extractions only read the low 12 bits, so the JavaScript 32-bit wrap is
unobservable. -/
def atobLoop : List Char → Nat → Nat → Option (List Nat)
  | [], _, _ => some []
  | ch :: rest, value, bits =>
    let ci := jsIndexOf B64_ALPHABET ch
    if ci = -1 then none
    else
      let v := value * 64 + ci.toNat
      if 8 ≤ bits + 6 then
        ((v / 2 ^ (bits + 6 - 8)) % 256 :: ·) <$> atobLoop rest v (bits + 6 - 8)
      else atobLoop rest v (bits + 6)

/-- The platform builtin `atob`, modelled by WHATWG forgiving-base64:
strip permitted padding, fail on a length of 1 modulo 4 or on characters
outside the alphabet, otherwise unpack 6-bit groups into bytes. -/
def atob (s : List Char) : Option (List Nat) :=
  let t := stripAtobPadding s
  if t.length % 4 = 1 then none else atobLoop t 0 0

/-- `base64urlDecode` from the compiled `basetools` module: undo the URL
character swap, restore `=` padding to a multiple of four, call `atob`. -/
def base64urlDecode (input : List Char) : Option (List Nat) :=
  let s := input.map b64UrlSwapBack
  let padded := if s.length % 4 > 0 then s ++ List.replicate (4 - s.length % 4) '=' else s
  atob padded

/-! ## tools.ts: prefix encoders and decoders -/

/-- `encodeCIDWithPrefixZ` from `tools.ts`: both branches of the length-38
test produce `"z" + encodeBase58BTC(bytes)` (the trailing `return ""` is
unreachable). -/
def encodeCIDWithPrefixZ (bytes : List Nat) : List Char :=
  if bytes.length = 38 then 'z' :: base58BitcoinEncode bytes
  else 'z' :: base58BitcoinEncode bytes

/-- `decodeCIDWithPrefixZ` from `tools.ts`: strip a leading `'z'` if present,
then base58-decode; the trailing `throw` is unreachable and embedded as the
final `none`. -/
def decodeCIDWithPrefixZ (cid : List Char) : Option (List Nat) :=
  if cid.head? = some 'z' then base58BitcoinDecode (cid.drop 1)
  else if cid.head? ≠ some 'z' then base58BitcoinDecode cid
  else none

/-- `encodeCIDWithPrefixU` from `tools.ts`: both branches produce
`"u" + encodeBase64URL(bytes)`. -/
def encodeCIDWithPrefixU (bytes : List Nat) : List Char :=
  if bytes.length = 38 then 'u' :: base64urlEncode bytes
  else 'u' :: base64urlEncode bytes

/-- `encodeCIDWithPrefixB` from `tools.ts`: both branches produce
`"b" + encodeBase32RFC(bytes).toLowerCase()`. -/
def encodeCIDWithPrefixB (bytes : List Nat) : List Char :=
  if bytes.length = 38 then 'b' :: jsToLowerStr (base32rfcEncode bytes)
  else 'b' :: jsToLowerStr (base32rfcEncode bytes)

/-- First reassignment in `decodeCIDWithPrefixB`: if the string starts with
`'B'` and contains an uppercase letter, lowercase it and strip the first
character. -/
def decodeBStage1 (cid : List Char) : List Char :=
  if cid.head? = some 'B' ∧ cid.any isUpperAlpha then (jsToLowerStr cid).drop 1
  else cid

/-- Second reassignment in `decodeCIDWithPrefixB`: if the string starts with
`'b'` and contains a lowercase letter, strip the first character. -/
def decodeBStage2 (cid : List Char) : List Char :=
  if cid.head? = some 'b' ∧ cid.any isLowerAlpha then cid.drop 1 else cid

/-- Third reassignment in `decodeCIDWithPrefixB`: if the string contains a
lowercase letter, uppercase it. -/
def decodeBStage3 (cid : List Char) : List Char :=
  if cid.any isLowerAlpha then jsToUpperStr cid else cid

/-- `decodeCIDWithPrefixB` from `tools.ts`: three sequential rewrites of the
string (lowercase-and-strip for `'B'`, strip for `'b'`, uppercase when any
lowercase letter remains), then base32-decode. -/
def decodeCIDWithPrefixB (cid : List Char) : List Nat :=
  base32rfcDecode (decodeBStage3 (decodeBStage2 (decodeBStage1 cid)))

/-- `getS5zBytesDecoded` from the compiled `tools` module (part_000): the
`'z'` decode with the length-53/52 heuristic; `none` embeds the
`undefined` fall-through. -/
def getS5zBytesDecoded (cid : List Char) : Option (List Nat) :=
  if cid.head? = some 'z' ∧ 53 ≤ cid.length then base58BitcoinDecode (cid.drop 1)
  else if cid.head? ≠ some 'z' ∧ cid.length ≤ 52 then base58BitcoinDecode cid
  else none

/-! ## tools.ts: the six cross-encoding converters -/

/-- Trailing `'='` strip `.replace(/=+$/, "")` used by the to-base32
converters (a no-op in practice: `base32rfcEncode` never emits `'='`). -/
def stripTrailingEq (L : List Char) : List Char :=
  (L.reverse.dropWhile (· = '=')).reverse

/-- `convertB58btcToB32rfcCid` from `tools.ts`. -/
def convertB58btcToB32rfcCid (cid : List Char) : Option (List Char) :=
  match base58BitcoinDecode (cid.drop 1) with
  | none => none
  | some decoded =>
    some ('b' :: jsToLowerStr (stripTrailingEq (base32rfcEncode decoded)))

/-- `convertB32rfcToB58btcCid` from `tools.ts`. -/
def convertB32rfcToB58btcCid (cid : List Char) : List Char :=
  'z' :: base58BitcoinEncode (base32rfcDecode (jsToUpperStr (cid.drop 1)))

/-- `convertB64urlToB58btcCid` from `tools.ts`. -/
def convertB64urlToB58btcCid (cid : List Char) : Option (List Char) :=
  match base64urlDecode (cid.drop 1) with
  | none => none
  | some decoded => some ('z' :: base58BitcoinEncode decoded)

/-- `convertB58btcToB64urlCid` from `tools.ts`. -/
def convertB58btcToB64urlCid (cid : List Char) : Option (List Char) :=
  match base58BitcoinDecode (cid.drop 1) with
  | none => none
  | some decoded => some ('u' :: base64urlEncode decoded)

/-- `convertB64urlToB32rfcCid` from `tools.ts`. -/
def convertB64urlToB32rfcCid (cid : List Char) : Option (List Char) :=
  match base64urlDecode (cid.drop 1) with
  | none => none
  | some decoded =>
    some ('b' :: jsToLowerStr (stripTrailingEq (base32rfcEncode decoded)))

/-- `convertB32rfcToB64urlCid` from `tools.ts`. -/
def convertB32rfcToB64urlCid (cid : List Char) : List Char :=
  'u' :: base64urlEncode (base32rfcDecode (jsToUpperStr (cid.drop 1)))

/-! ## blake3tools.ts: multihash and CID layout -/

/-- `numToBuf` from `blake3tools.ts` (the JavaScript-number version):
little-endian bytes of `value`, truncated at the first point the value
reaches zero, at most `bufferSize` bytes.  `value % 256` followed by the
`Uint8Array` store is `Int.emod 256`, and `value >>= 8` is `jsShr8`
(for inputs in `[2^31, 2^32)` the `ToInt32` wrap makes the shifted value
negative, so it never reaches zero and all `bufferSize` bytes are 0xFF-like
residues). -/
def numToBufAux : Int → Nat → List Nat
  | _, 0 => []
  | v, n + 1 =>
    if v = 0 then []
    else (v % 256).toNat :: numToBufAux (jsShr8 v) n

/-- `numToBuf value bufferSize`, see `numToBufAux`. -/
def numToBuf (value : Int) (bufferSize : Nat) : List Nat :=
  numToBufAux value bufferSize

/-- `bufToNum` from `blake3tools.ts`: `Buffer.readIntLE(0, bufferSize)`,
a little-endian signed (two's-complement) read of `bufferSize` bytes;
`none` embeds the `ERR_OUT_OF_RANGE` throw when the buffer is shorter
than `bufferSize`. -/
def bufToNum (bytes : List Nat) (bufferSize : Nat) : Option Int :=
  if bytes.length < bufferSize then none
  else
    let u := ofB 256 (bytes.take bufferSize)
    some (if 2 ^ (8 * bufferSize - 1) ≤ u then (u : Int) - 2 ^ (8 * bufferSize) else (u : Int))

/-- `generateMHashFromB3hash` from `blake3tools.ts`:
`Buffer.concat([Buffer.alloc(1, mhashBlake3Default), b3hash])`.  The
constant `mhashBlake3Default` lives in `constants.ts` (not part of the
sources under verification), so it is a parameter; `Buffer.alloc` coerces
the fill value to a byte. -/
def generateMHashFromB3hash (mhashBlake3Default : Nat) (b3hash : List Nat) : List Nat :=
  mhashBlake3Default % 256 :: b3hash

/-- `extractB3hashFromMHash` from `blake3tools.ts`: `mHash.slice(1)`.
No emptiness check is performed: `[].slice(1)` is `[]`. -/
def extractB3hashFromMHash (mHash : List Nat) : List Nat :=
  mHash.drop 1

/-- `generateCIDFromMHash` from `blake3tools.ts`:
`Buffer.concat([Buffer.alloc(1, cidTypeRaw), mHash, numToBuf(file.size, 4)])`.
The constant `cidTypeRaw` is a parameter (see `generateMHashFromB3hash`)
and the file is represented by its size. -/
def generateCIDFromMHash (cidTypeRaw : Nat) (mHash : List Nat) (fileSize : Int) : List Nat :=
  cidTypeRaw % 256 :: (mHash ++ numToBuf fileSize 4)

/-- `extractMHashFromCID` from `blake3tools.ts`.  The source searches for the
hash size with `while (hashSize !== 33) { i++; hashSize = cid.length - i }`:
starting from `hashSize = cid.length - 1`, the loop reaches 33 exactly when
`cid.length ≥ 34` (then `mHash = cid.slice(1, 34)`); for shorter inputs
`cid.length - i` decreases past every value without hitting 33 and the loop
never terminates — the divergence is embedded as `none`. -/
def extractMHashFromCID (cid : List Nat) : Option (List Nat) :=
  if 34 ≤ cid.length then some ((cid.drop 1).take 33) else none

/-- `extractRawSizeFromCID` from `blake3tools.ts`:
`bufToNum(cid.slice(34), 4)`. -/
def extractRawSizeFromCID (cid : List Nat) : Option Int :=
  bufToNum (cid.drop 34) 4

/-- Proof-side variant of `base32DecodeLoop` over digit values with an
unbounded natural accumulator; `base32DecodeLoop` agrees with it on valid
alphabet characters (lemma `base32DecodeLoop_eq_loopD`). -/
def base32DecodeLoopD : List Nat → Nat → Nat → List Nat
  | [], _, _ => []
  | d :: ds, w, bits =>
    if 8 ≤ bits + 5 then
      ((w * 32 + d) / 2 ^ (bits + 5 - 8)) % 256 ::
        base32DecodeLoopD ds (w * 32 + d) (bits + 5 - 8)
    else base32DecodeLoopD ds (w * 32 + d) (bits + 5)

/-! ## Generic lemmas about positional values -/

theorem ofB_append (B : Nat) (X Y : List Nat) :
    ofB B (X ++ Y) = ofB B X + B ^ X.length * ofB B Y := by
  induction X with
  | nil => simp [ofB]
  | cons d ds ih => simp [ofB, ih, pow_succ]; ring

theorem ofB_lt (B : Nat) (_hB : 0 < B) (L : List Nat) (h : ∀ d ∈ L, d < B) :
    ofB B L < B ^ L.length := by
  induction L with
  | nil => simp [ofB]
  | cons d ds ih =>
    have hd : d < B := h d (by simp)
    have hds : ofB B ds < B ^ ds.length := ih (fun x hx => h x (by simp [hx]))
    have : d + B * ofB B ds + 1 ≤ B * B ^ ds.length := by
      calc d + B * ofB B ds + 1 ≤ B + B * ofB B ds := by omega
        _ = B * (ofB B ds + 1) := by ring
        _ ≤ B * B ^ ds.length := Nat.mul_le_mul_left B hds
    simpa [ofB, List.length_cons, pow_succ, Nat.mul_comm] using this

theorem foldl_horner (B : Nat) (L : List Nat) (a : Nat) :
    L.foldl (fun a d => B * a + d) a = a * B ^ L.length + ofB B L.reverse := by
  induction L generalizing a with
  | nil => simp [ofB]
  | cons d ds ih =>
    simp only [List.foldl_cons, List.reverse_cons, ih, ofB_append, List.length_reverse,
      List.length_cons, ofB]
    ring

theorem beV_eq_ofB_reverse (B : Nat) (L : List Nat) :
    beV B L = ofB B L.reverse := by
  simp [beV, foldl_horner]

theorem beV_append (B : Nat) (X Y : List Nat) :
    beV B (X ++ Y) = beV B X * B ^ Y.length + beV B Y := by
  rw [beV_eq_ofB_reverse B (X ++ Y), List.reverse_append, ofB_append,
    beV_eq_ofB_reverse, beV_eq_ofB_reverse, List.length_reverse]
  ring

theorem beV_cons (B : Nat) (d : Nat) (L : List Nat) :
    beV B (d :: L) = d * B ^ L.length + beV B L := by
  simpa [show beV B [d] = d from by simp [beV]] using beV_append B [d] L

theorem beV_lt (B : Nat) (hB : 0 < B) (L : List Nat) (h : ∀ d ∈ L, d < B) :
    beV B L < B ^ L.length := by
  rw [beV_eq_ofB_reverse]
  have := ofB_lt B hB L.reverse (fun d hd => h d (List.mem_reverse.mp hd))
  simpa using this

theorem beV_inj (B : Nat) (hB : 0 < B) (L1 L2 : List Nat)
    (hlen : L1.length = L2.length) (h1 : ∀ d ∈ L1, d < B) (h2 : ∀ d ∈ L2, d < B)
    (hv : beV B L1 = beV B L2) : L1 = L2 := by
  induction L1 generalizing L2 with
  | nil => cases L2 with
    | nil => rfl
    | cons => simp at hlen
  | cons d ds ih =>
    cases L2 with
    | nil => simp at hlen
    | cons e es =>
      have hlen' : ds.length = es.length := by simpa using hlen
      rw [beV_cons, beV_cons, hlen'] at hv
      have hds : beV B ds < B ^ es.length := by
        rw [← hlen']; exact beV_lt B hB ds (fun x hx => h1 x (by simp [hx]))
      have hes : beV B es < B ^ es.length := beV_lt B hB es (fun x hx => h2 x (by simp [hx]))
      have hde : d = e := by
        by_contra hne
        rcases Nat.lt_or_ge d e with hlt | hge
        · have : d * B ^ es.length + B ^ es.length ≤ e * B ^ es.length := by
            have : d + 1 ≤ e := hlt
            calc d * B ^ es.length + B ^ es.length = (d + 1) * B ^ es.length := by ring
              _ ≤ e * B ^ es.length := Nat.mul_le_mul_right _ this
          omega
        · have hlt : e < d := lt_of_le_of_ne hge (Ne.symm hne)
          have : e * B ^ es.length + B ^ es.length ≤ d * B ^ es.length := by
            have : e + 1 ≤ d := hlt
            calc e * B ^ es.length + B ^ es.length = (e + 1) * B ^ es.length := by ring
              _ ≤ d * B ^ es.length := Nat.mul_le_mul_right _ this
          omega
      subst hde
      have : beV B ds = beV B es := by omega
      rw [ih es hlen' (fun x hx => h1 x (by simp [hx])) (fun x hx => h2 x (by simp [hx])) this]

/-! ## Lemmas about the base58 codec -/

theorem getLastD_indep {L : List Nat} (h : L ≠ []) (a b : Nat) :
    L.getLastD a = L.getLastD b := by
  cases L with
  | nil => exact absurd rfl h
  | cons x xs => rw [List.getLastD_cons, List.getLastD_cons]

theorem head_dropWhile_false {p : Nat → Bool} :
    ∀ {L : List Nat} {x : Nat}, (L.dropWhile p).head? = some x → p x = false
  | [], x, h => by simp [List.dropWhile] at h
  | a :: as, x, h => by
    by_cases hp : p a
    · rw [List.dropWhile_cons_of_pos hp] at h
      exact head_dropWhile_false h
    · rw [List.dropWhile_cons_of_neg hp] at h
      simp at h
      simpa [← h] using hp

theorem head_dropWhile_false_char {p : Char → Bool} :
    ∀ {L : List Char} {x : Char}, (L.dropWhile p).head? = some x → p x = false
  | [], x, h => by simp [List.dropWhile] at h
  | a :: as, x, h => by
    by_cases hp : p a
    · rw [List.dropWhile_cons_of_pos hp] at h
      exact head_dropWhile_false_char h
    · rw [List.dropWhile_cons_of_neg hp] at h
      simp at h
      simpa [← h] using hp

theorem pushCarry58Aux_ofB : ∀ fuel c, c ≤ fuel → ofB 58 (pushCarry58Aux fuel c) = c
  | _, 0, _ => by cases ‹Nat› <;> simp [pushCarry58Aux, ofB]
  | 0, c + 1, h => by omega
  | fuel + 1, c + 1, h => by
    have hrec : (c + 1) / 58 ≤ fuel := by
      have := Nat.div_le_self (c + 1) 58
      have h2 : (c + 1) / 58 < c + 1 := Nat.div_lt_self (by omega) (by omega)
      omega
    simp only [pushCarry58Aux, ofB, pushCarry58Aux_ofB fuel ((c + 1) / 58) hrec]
    omega

theorem pushCarry58Aux_lt : ∀ fuel c, ∀ d ∈ pushCarry58Aux fuel c, d < 58
  | _, 0, d, h => by cases ‹Nat› <;> simp [pushCarry58Aux] at h
  | 0, c + 1, d, h => by simp [pushCarry58Aux] at h
  | fuel + 1, c + 1, d, h => by
    simp only [pushCarry58Aux, List.mem_cons] at h
    rcases h with h | h
    · omega
    · exact pushCarry58Aux_lt fuel _ d h

theorem pushCarry58Aux_lastNZ : ∀ fuel c, c ≤ fuel →
    (pushCarry58Aux fuel c).getLastD 1 ≠ 0
  | _, 0, _ => by cases ‹Nat› <;> simp [pushCarry58Aux]
  | 0, c + 1, h => by omega
  | fuel + 1, c + 1, h => by
    have hrec : (c + 1) / 58 ≤ fuel := by
      have h2 : (c + 1) / 58 < c + 1 := Nat.div_lt_self (by omega) (by omega)
      omega
    simp only [pushCarry58Aux, List.getLastD_cons]
    by_cases hz : (c + 1) / 58 = 0
    · have hlt : c + 1 < 58 := by
        rcases Nat.lt_or_ge (c + 1) 58 with h' | h'
        · exact h'
        · exfalso; have := Nat.div_le_div_right (c := 58) h'; simp at this; omega
      have : pushCarry58Aux fuel ((c + 1) / 58) = [] := by
        rw [hz]; cases fuel <;> simp [pushCarry58Aux]
      rw [this]
      simp [Nat.mod_eq_of_lt hlt]
    · have hne : pushCarry58Aux fuel ((c + 1) / 58) ≠ [] := by
        rcases hq : (c + 1) / 58 with _ | q
        · exact absurd hq hz
        · cases fuel with
          | zero => omega
          | succ f => simp [pushCarry58Aux]
      rw [getLastD_indep hne _ 1]
      exact pushCarry58Aux_lastNZ fuel _ hrec

theorem pushCarry58_ofB (c : Nat) : ofB 58 (pushCarry58 c) = c :=
  pushCarry58Aux_ofB c c le_rfl

theorem pushCarry58_lt (c : Nat) : ∀ d ∈ pushCarry58 c, d < 58 :=
  pushCarry58Aux_lt c c

theorem pushCarry58_lastNZ (c : Nat) : (pushCarry58 c).getLastD 1 ≠ 0 :=
  pushCarry58Aux_lastNZ c c le_rfl

theorem carryPass58_ofB : ∀ ds c, ofB 58 (carryPass58 ds c) = ofB 58 ds + c
  | [], c => by simp [carryPass58, ofB, pushCarry58_ofB]
  | d :: ds, c => by
    simp only [carryPass58, ofB, carryPass58_ofB ds ((d + c) / 58)]
    omega

theorem carryPass58_lt : ∀ ds c, ∀ x ∈ carryPass58 ds c, x < 58
  | [], c, x, h => pushCarry58_lt c x h
  | d :: ds, c, x, h => by
    simp only [carryPass58, List.mem_cons] at h
    rcases h with h | h
    · omega
    · exact carryPass58_lt ds _ x h

theorem ofB_map_mul (B k : Nat) : ∀ L : List Nat, ofB B (L.map (· * k)) = k * ofB B L
  | [] => by simp [ofB]
  | d :: ds => by simp [ofB, ofB_map_mul B k ds]; ring

theorem base58EncodeStep_ofB (digits : List Nat) (byte : Nat) :
    ofB 58 (base58EncodeStep digits byte) = 256 * ofB 58 digits + byte := by
  cases digits with
  | nil =>
    simp only [base58EncodeStep, carryPass58_ofB, ofB]
    omega
  | cons d ds =>
    simp only [base58EncodeStep, carryPass58_ofB, ofB, ofB_map_mul]
    omega

theorem base58EncodeStep_lt (digits : List Nat) (byte : Nat) :
    ∀ x ∈ base58EncodeStep digits byte, x < 58 := by
  cases digits with
  | nil => exact carryPass58_lt _ _
  | cons d ds => exact carryPass58_lt _ _

theorem encFold_ofB : ∀ (bytes : List Nat) (D : List Nat),
    ofB 58 (bytes.foldl base58EncodeStep D) =
      ofB 58 D * 256 ^ bytes.length + beV 256 bytes
  | [], D => by simp [beV]
  | b :: bs, D => by
    simp only [List.foldl_cons, encFold_ofB bs, base58EncodeStep_ofB, beV_cons,
      List.length_cons]
    ring

theorem encFold_lt : ∀ (bytes : List Nat) (D : List Nat),
    (∀ d ∈ D, d < 58) → ∀ d ∈ bytes.foldl base58EncodeStep D, d < 58
  | [], D, hD => hD
  | b :: bs, D, hD => by
    simpa using encFold_lt bs (base58EncodeStep D b) (base58EncodeStep_lt D b)

theorem ofB_all_zero (B : Nat) : ∀ Z : List Nat, (∀ d ∈ Z, d = 0) → ofB B Z = 0
  | [], _ => rfl
  | d :: ds, h => by
    have h0 : d = 0 := h d (by simp)
    have := ofB_all_zero B ds (fun x hx => h x (by simp [hx]))
    simp [ofB, h0, this]

theorem dropTrailingZeros_spec (L : List Nat) :
    L = dropTrailingZeros L ++ (L.reverse.takeWhile (· = 0)).reverse := by
  have h := List.takeWhile_append_dropWhile (p := fun d : Nat => d = 0) (l := L.reverse)
  calc L = L.reverse.reverse := by simp
    _ = (L.reverse.takeWhile (· = 0) ++ L.reverse.dropWhile (· = 0)).reverse := by rw [h]
    _ = dropTrailingZeros L ++ (L.reverse.takeWhile (· = 0)).reverse := by
        rw [List.reverse_append]; rfl

theorem dropTrailingZeros_ofB (B : Nat) (L : List Nat) :
    ofB B (dropTrailingZeros L) = ofB B L := by
  conv_rhs => rw [dropTrailingZeros_spec L]
  rw [ofB_append]
  have hz : ofB B (L.reverse.takeWhile (· = 0)).reverse = 0 := by
    apply ofB_all_zero
    intro d hd
    have hmem : d ∈ L.reverse.takeWhile (· = 0) := List.mem_reverse.mp hd
    simpa using List.mem_takeWhile_imp hmem
  rw [hz]
  simp

theorem dropTrailingZeros_mem (L : List Nat) :
    ∀ d ∈ dropTrailingZeros L, d ∈ L := by
  intro d hd
  have h1 : d ∈ L.reverse.dropWhile (· = 0) := List.mem_reverse.mp hd
  have h2 : d ∈ L.reverse := ((List.dropWhile_sublist _).mem h1)
  exact List.mem_reverse.mp h2

theorem dropTrailingZeros_lastNZ (L : List Nat) :
    (dropTrailingZeros L).getLastD 1 ≠ 0 := by
  unfold dropTrailingZeros
  cases hc : L.reverse.dropWhile (· = 0) with
  | nil => simp
  | cons a as =>
    have ha : ¬ (a = 0) := by
      have hh : (L.reverse.dropWhile (· = 0)).head? = some a := by rw [hc]; rfl
      simpa using head_dropWhile_false (p := (· = 0)) hh
    rw [List.reverse_cons, List.getLastD_concat]
    exact ha

theorem ofB_eq_ofDigits (B : Nat) : ∀ L : List Nat, ofB B L = Nat.ofDigits B L
  | [] => by simp [ofB]
  | d :: ds => by
    rw [ofB, Nat.ofDigits_cons, ofB_eq_ofDigits B ds]

theorem getLast_of_getLastD {L : List Nat} (hnz : L.getLastD 1 ≠ 0)
    (h : L ≠ []) : L.getLast h ≠ 0 := by
  have : L.getLastD 1 = L.getLast h := by
    rw [List.getLastD_eq_getLast?, List.getLast?_eq_getLast L h]
    rfl
  rw [← this]
  exact hnz

theorem ofB_inj_lastNZ (B : Nat) (hB : 2 ≤ B) (L1 L2 : List Nat)
    (h1 : ∀ d ∈ L1, d < B) (h2 : ∀ d ∈ L2, d < B)
    (hz1 : L1.getLastD 1 ≠ 0) (hz2 : L2.getLastD 1 ≠ 0)
    (hv : ofB B L1 = ofB B L2) : L1 = L2 := by
  have d1 : Nat.digits B (Nat.ofDigits B L1) = L1 :=
    Nat.digits_ofDigits B (by omega) L1 h1 (fun h => getLast_of_getLastD hz1 h)
  have d2 : Nat.digits B (Nat.ofDigits B L2) = L2 :=
    Nat.digits_ofDigits B (by omega) L2 h2 (fun h => getLast_of_getLastD hz2 h)
  rw [← d1, ← d2, ← ofB_eq_ofDigits, ← ofB_eq_ofDigits, hv]

theorem pushCarry256Aux_ofB : ∀ fuel c, c ≤ fuel → ofB 256 (pushCarry256Aux fuel c) = c
  | _, 0, _ => by cases ‹Nat› <;> simp [pushCarry256Aux, ofB]
  | 0, c + 1, h => by omega
  | fuel + 1, c + 1, h => by
    have hrec : (c + 1) / 256 ≤ fuel := by
      have h2 : (c + 1) / 256 < c + 1 := Nat.div_lt_self (by omega) (by omega)
      omega
    simp only [pushCarry256Aux, ofB, pushCarry256Aux_ofB fuel ((c + 1) / 256) hrec]
    omega

theorem pushCarry256Aux_lt : ∀ fuel c, ∀ d ∈ pushCarry256Aux fuel c, d < 256
  | _, 0, d, h => by cases ‹Nat› <;> simp [pushCarry256Aux] at h
  | 0, c + 1, d, h => by simp [pushCarry256Aux] at h
  | fuel + 1, c + 1, d, h => by
    simp only [pushCarry256Aux, List.mem_cons] at h
    rcases h with h | h
    · omega
    · exact pushCarry256Aux_lt fuel _ d h

theorem pushCarry256Aux_lastNZ : ∀ fuel c, c ≤ fuel →
    (pushCarry256Aux fuel c).getLastD 1 ≠ 0
  | _, 0, _ => by cases ‹Nat› <;> simp [pushCarry256Aux]
  | 0, c + 1, h => by omega
  | fuel + 1, c + 1, h => by
    have hrec : (c + 1) / 256 ≤ fuel := by
      have h2 : (c + 1) / 256 < c + 1 := Nat.div_lt_self (by omega) (by omega)
      omega
    simp only [pushCarry256Aux, List.getLastD_cons]
    by_cases hz : (c + 1) / 256 = 0
    · have hlt : c + 1 < 256 := by omega
      have he : pushCarry256Aux fuel ((c + 1) / 256) = [] := by
        rw [hz]; cases fuel <;> simp [pushCarry256Aux]
      rw [he]
      simp [Nat.mod_eq_of_lt hlt]
    · have hne : pushCarry256Aux fuel ((c + 1) / 256) ≠ [] := by
        rcases hq : (c + 1) / 256 with _ | q
        · exact absurd hq hz
        · cases fuel with
          | zero => omega
          | succ f => simp [pushCarry256Aux]
      rw [getLastD_indep hne _ 1]
      exact pushCarry256Aux_lastNZ fuel _ hrec

theorem pushCarry256_ofB (c : Nat) : ofB 256 (pushCarry256 c) = c :=
  pushCarry256Aux_ofB c c le_rfl

theorem pushCarry256_lt (c : Nat) : ∀ d ∈ pushCarry256 c, d < 256 :=
  pushCarry256Aux_lt c c

theorem pushCarry256_lastNZ (c : Nat) : (pushCarry256 c).getLastD 1 ≠ 0 :=
  pushCarry256Aux_lastNZ c c le_rfl

theorem base58DecodeStep_ofB : ∀ (bs : List Nat) (v : Nat),
    ofB 256 (base58DecodeStep bs v) = v + 58 * ofB 256 bs
  | [], v => by simp [base58DecodeStep, pushCarry256_ofB, ofB]
  | bb :: bs, v => by
    simp only [base58DecodeStep, ofB, base58DecodeStep_ofB bs ((v + bb * 58) / 256)]
    omega

theorem base58DecodeStep_lt : ∀ (bs : List Nat) (v : Nat),
    ∀ d ∈ base58DecodeStep bs v, d < 256
  | [], v, d, h => pushCarry256_lt v d h
  | bb :: bs, v, d, h => by
    simp only [base58DecodeStep, List.mem_cons] at h
    rcases h with h | h
    · omega
    · exact base58DecodeStep_lt bs _ d h

theorem base58DecodeStep_lastNZ : ∀ (bs : List Nat) (v : Nat),
    bs.getLastD 1 ≠ 0 → (base58DecodeStep bs v).getLastD 1 ≠ 0
  | [], v, _ => pushCarry256_lastNZ v
  | [bb], v, hz => by
    simp only [List.getLastD_cons, List.getLastD_nil] at hz
    rw [show base58DecodeStep [bb] v =
      (v + bb * 58) % 256 :: pushCarry256 ((v + bb * 58) / 256) from rfl]
    rw [List.getLastD_cons]
    by_cases hc : (v + bb * 58) / 256 = 0
    · have hlt : v + bb * 58 < 256 := by omega
      have he : pushCarry256 ((v + bb * 58) / 256) = [] := by
        rw [hc]; rfl
      rw [he, List.getLastD_nil]
      omega
    · have hne : pushCarry256 ((v + bb * 58) / 256) ≠ [] := by
        rcases hq : (v + bb * 58) / 256 with _ | q
        · exact absurd hq hc
        · simp [pushCarry256, pushCarry256Aux]
      rw [getLastD_indep hne _ 1]
      exact pushCarry256_lastNZ _
  | bb :: b2 :: bs, v, hz => by
    rw [show base58DecodeStep (bb :: b2 :: bs) v =
      (v + bb * 58) % 256 :: base58DecodeStep (b2 :: bs) ((v + bb * 58) / 256) from rfl]
    rw [List.getLastD_cons]
    have hne : base58DecodeStep (b2 :: bs) ((v + bb * 58) / 256) ≠ [] := by
      rw [show base58DecodeStep (b2 :: bs) ((v + bb * 58) / 256) =
        ((v + bb * 58) / 256 + b2 * 58) % 256 ::
          base58DecodeStep bs (((v + bb * 58) / 256 + b2 * 58) / 256) from rfl]
      simp
    rw [getLastD_indep hne _ 1]
    apply base58DecodeStep_lastNZ (b2 :: bs)
    rw [List.getLastD_cons] at hz ⊢
    cases bs with
    | nil => simpa using hz
    | cons b3 bs' =>
      rw [getLastD_indep (by simp) b2 1]
      rw [getLastD_indep (by simp) bb 1] at hz
      exact hz

theorem base58DecodeLoop_eq : ∀ (chars : List Char) (bytes : List Nat),
    (∀ ch ∈ chars, jsIndexOf ALPHABET ch ≠ -1) →
    base58DecodeLoop chars bytes = some
      ((chars.foldl (fun bs ch =>
        base58DecodeStep bs (jsIndexOf ALPHABET ch).toNat) bytes).reverse)
  | [], bytes, _ => rfl
  | ch :: rest, bytes, h => by
    have hch : jsIndexOf ALPHABET ch ≠ -1 := h ch (by simp)
    simp only [base58DecodeLoop, if_neg hch, List.foldl_cons]
    exact base58DecodeLoop_eq rest _ (fun c hc => h c (by simp [hc]))

theorem decodeFold_lt : ∀ (chars : List Char) (bytes : List Nat),
    (∀ d ∈ bytes, d < 256) →
    ∀ d ∈ chars.foldl (fun bs ch =>
      base58DecodeStep bs (jsIndexOf ALPHABET ch).toNat) bytes, d < 256
  | [], bytes, h => h
  | ch :: rest, bytes, h => by
    simpa using decodeFold_lt rest _ (base58DecodeStep_lt bytes _)

theorem decodeFold_lastNZ : ∀ (chars : List Char) (bytes : List Nat),
    bytes.getLastD 1 ≠ 0 →
    (chars.foldl (fun bs ch =>
      base58DecodeStep bs (jsIndexOf ALPHABET ch).toNat) bytes).getLastD 1 ≠ 0
  | [], bytes, h => h
  | ch :: rest, bytes, h => by
    simpa using decodeFold_lastNZ rest _ (base58DecodeStep_lastNZ bytes _ h)

theorem decodeFold_ofB : ∀ (chars : List Char) (bytes : List Nat),
    ofB 256 (chars.foldl (fun bs ch =>
      base58DecodeStep bs (jsIndexOf ALPHABET ch).toNat) bytes) =
    chars.foldl (fun m ch => 58 * m + (jsIndexOf ALPHABET ch).toNat) (ofB 256 bytes)
  | [], bytes => rfl
  | ch :: rest, bytes => by
    simp only [List.foldl_cons, decodeFold_ofB rest, base58DecodeStep_ofB]
    rw [Nat.add_comm]

theorem alphabet58_idx : ∀ d, d < 58 →
    jsIndexOf ALPHABET (ALPHABET.getD d '1') = (d : Int) := by
  decide

theorem foldl_valify58 : ∀ (L : List Nat) (a : Nat), (∀ d ∈ L, d < 58) →
    L.foldl (fun m d =>
      58 * m + (jsIndexOf ALPHABET (ALPHABET.getD d '1')).toNat) a =
    L.foldl (fun m d => 58 * m + d) a
  | [], _, _ => rfl
  | d :: ds, a, h => by
    have hd : d < 58 := h d (by simp)
    simp only [List.foldl_cons, alphabet58_idx d hd, Int.toNat_natCast]
    exact foldl_valify58 ds _ (fun x hx => h x (by simp [hx]))

theorem beV_dropWhile_zero (B : Nat) : ∀ L : List Nat,
    beV B (L.dropWhile (· = 0)) = beV B L
  | [] => rfl
  | d :: ds => by
    by_cases hd : d = 0
    · subst hd
      rw [List.dropWhile_cons_of_pos (by simp), beV_dropWhile_zero B ds, beV_cons]
      simp
    · rw [List.dropWhile_cons_of_neg (by simpa using hd)]

/-- Round-trip of the base58 codec as implemented: decoding the encoding
returns the input with its leading zero bytes removed (the big-integer
conversion in `base58BitcoinEncode` does not map leading zero bytes to `'1'`
symbols, so they are lost). -/
theorem base58_roundtrip (b : List Nat) (hb : ∀ x ∈ b, x < 256) :
    base58BitcoinDecode (base58BitcoinEncode b) = some (b.dropWhile (· = 0)) := by
  have htlt : ∀ d ∈ dropTrailingZeros (b.foldl base58EncodeStep [0]), d < 58 :=
    fun d hd => encFold_lt b [0] (by simp) d (dropTrailingZeros_mem _ d hd)
  have htz : (dropTrailingZeros (b.foldl base58EncodeStep [0])).getLastD 1 ≠ 0 :=
    dropTrailingZeros_lastNZ _
  have htofB : ofB 58 (dropTrailingZeros (b.foldl base58EncodeStep [0])) = beV 256 b := by
    rw [dropTrailingZeros_ofB, encFold_ofB]
    simp [ofB]
  have henc : base58BitcoinEncode b =
      ((dropTrailingZeros (b.foldl base58EncodeStep [0])).reverse).map
        (fun d => ALPHABET.getD d '1') := rfl
  have hvalid : ∀ ch ∈ base58BitcoinEncode b, jsIndexOf ALPHABET ch ≠ -1 := by
    rw [henc]
    intro ch hch
    rcases List.mem_map.mp hch with ⟨d, hd, rfl⟩
    have : d < 58 := htlt d (List.mem_reverse.mp hd)
    rw [alphabet58_idx d this]
    omega
  rw [show base58BitcoinDecode (base58BitcoinEncode b) =
    base58DecodeLoop (base58BitcoinEncode b) [] from rfl]
  rw [base58DecodeLoop_eq _ [] hvalid]
  have hofB : ofB 256 ((base58BitcoinEncode b).foldl (fun bs ch =>
      base58DecodeStep bs (jsIndexOf ALPHABET ch).toNat) []) = beV 256 b := by
    rw [decodeFold_ofB]
    rw [henc, List.foldl_map]
    rw [show ofB 256 [] = 0 from rfl]
    rw [foldl_valify58 _ 0 (fun d hd => htlt d (List.mem_reverse.mp hd))]
    rw [show (dropTrailingZeros (b.foldl base58EncodeStep [0])).reverse.foldl
        (fun m d => 58 * m + d) 0 =
      beV 58 (dropTrailingZeros (b.foldl base58EncodeStep [0])).reverse from rfl]
    rw [beV_eq_ofB_reverse, List.reverse_reverse, htofB]
  have hflt : ∀ d ∈ (base58BitcoinEncode b).foldl (fun bs ch =>
      base58DecodeStep bs (jsIndexOf ALPHABET ch).toNat) [], d < 256 :=
    decodeFold_lt _ [] (by simp)
  have hfz : ((base58BitcoinEncode b).foldl (fun bs ch =>
      base58DecodeStep bs (jsIndexOf ALPHABET ch).toNat) []).getLastD 1 ≠ 0 :=
    decodeFold_lastNZ _ [] (by simp)
  have hbz : ofB 256 ((b.dropWhile (· = 0)).reverse) = beV 256 b := by
    rw [← beV_eq_ofB_reverse, beV_dropWhile_zero]
  have hblt : ∀ d ∈ (b.dropWhile (· = 0)).reverse, d < 256 := by
    intro d hd
    exact hb d (((List.dropWhile_sublist _).mem) (List.mem_reverse.mp hd))
  have hbnz : ((b.dropWhile (· = 0)).reverse).getLastD 1 ≠ 0 := by
    cases hc : b.dropWhile (· = 0) with
    | nil => simp
    | cons a as =>
      have ha : ¬ (a = 0) := by
        have hh : (b.dropWhile (· = 0)).head? = some a := by rw [hc]; rfl
        simpa using head_dropWhile_false (p := (· = 0)) hh
      rw [List.reverse_cons, List.getLastD_concat]
      exact ha
  have heq := ofB_inj_lastNZ 256 (by omega) _ _ hflt hblt hfz hbnz (by rw [hofB, hbz])
  rw [heq, List.reverse_reverse]

/-! ## Lemmas about the base32 codec -/

theorem base32FlushD_length : ∀ (fuel v bits : Nat), bits ≤ fuel →
    (base32FlushD fuel v bits).length = bits / 5
  | 0, v, bits, h => by
    have : bits = 0 := by omega
    subst this
    rfl
  | fuel + 1, v, bits, h => by
    by_cases h5 : 5 ≤ bits
    · rw [show base32FlushD (fuel + 1) v bits =
        (if 5 ≤ bits then (v / 2 ^ (bits - 5)) % 32 :: base32FlushD fuel v (bits - 5)
         else []) from rfl, if_pos h5]
      rw [List.length_cons, base32FlushD_length fuel v (bits - 5) (by omega)]
      omega
    · rw [show base32FlushD (fuel + 1) v bits =
        (if 5 ≤ bits then (v / 2 ^ (bits - 5)) % 32 :: base32FlushD fuel v (bits - 5)
         else []) from rfl, if_neg h5]
      simp
      omega

theorem base32FlushD_lt : ∀ (fuel v bits : Nat), ∀ d ∈ base32FlushD fuel v bits, d < 32
  | 0, v, bits, d, h => by simp [base32FlushD] at h
  | fuel + 1, v, bits, d, h => by
    rw [show base32FlushD (fuel + 1) v bits =
      (if 5 ≤ bits then (v / 2 ^ (bits - 5)) % 32 :: base32FlushD fuel v (bits - 5)
       else []) from rfl] at h
    by_cases h5 : 5 ≤ bits
    · rw [if_pos h5] at h
      rcases List.mem_cons.mp h with h | h
      · omega
      · exact base32FlushD_lt fuel v (bits - 5) d h
    · rw [if_neg h5] at h
      simp at h

theorem base32FlushD_beV : ∀ (fuel v bits : Nat), bits ≤ fuel →
    beV 32 (base32FlushD fuel v bits) = v % 2 ^ bits / 2 ^ (bits % 5)
  | 0, v, bits, h => by
    have : bits = 0 := by omega
    subst this
    simp [base32FlushD, beV, Nat.mod_one]
  | fuel + 1, v, bits, h => by
    by_cases h5 : 5 ≤ bits
    · rw [show base32FlushD (fuel + 1) v bits =
        (if 5 ≤ bits then (v / 2 ^ (bits - 5)) % 32 :: base32FlushD fuel v (bits - 5)
         else []) from rfl, if_pos h5]
      rw [beV_cons, base32FlushD_length fuel v (bits - 5) (by omega),
        base32FlushD_beV fuel v (bits - 5) (by omega)]
      symm
      have hr : (bits - 5) % 5 = bits % 5 := by omega
      have hpow : (2 : Nat) ^ bits = 2 ^ (bits - 5) * 32 := by
        rw [show (32 : Nat) = 2 ^ 5 from rfl, ← pow_add]
        congr 1
        omega
      have ha : v % 2 ^ bits / 2 ^ (bits - 5) = v / 2 ^ (bits - 5) % 32 := by
        rw [hpow]
        exact Nat.mod_mul_right_div_self v (2 ^ (bits - 5)) 32
      have hmm : v % 2 ^ bits % 2 ^ (bits - 5) = v % 2 ^ (bits - 5) := by
        apply Nat.mod_mod_of_dvd
        rw [hpow]
        exact dvd_mul_right _ _
      have hsplit : v % 2 ^ bits =
          v / 2 ^ (bits - 5) % 32 * 2 ^ (bits - 5) + v % 2 ^ (bits - 5) := by
        conv_lhs => rw [← Nat.div_add_mod (v % 2 ^ bits) (2 ^ (bits - 5))]
        rw [ha, hmm, Nat.mul_comm]
      have hpow2 : (2 : Nat) ^ (bits - 5) = 2 ^ (bits - 5 - bits % 5) * 2 ^ (bits % 5) := by
        rw [← pow_add]
        congr 1
        omega
      have h32k : (2 : Nat) ^ (bits - 5 - bits % 5) = 32 ^ ((bits - 5) / 5) := by
        rw [show (32 : Nat) = 2 ^ 5 from rfl, ← pow_mul]
        congr 1
        omega
      calc v % 2 ^ bits / 2 ^ (bits % 5)
          = (v % 2 ^ (bits - 5) +
             v / 2 ^ (bits - 5) % 32 * 32 ^ ((bits - 5) / 5) * 2 ^ (bits % 5)) /
              2 ^ (bits % 5) := by
            rw [hsplit]
            congr 1
            rw [hpow2, ← h32k]
            ring
        _ = v % 2 ^ (bits - 5) / 2 ^ (bits % 5) +
             v / 2 ^ (bits - 5) % 32 * 32 ^ ((bits - 5) / 5) :=
            Nat.add_mul_div_right _ _ (Nat.pos_pow_of_pos _ (by omega))
        _ = v / 2 ^ (bits - 5) % 32 * 32 ^ ((bits - 5) / 5) +
             v % 2 ^ (bits - 5) / 2 ^ ((bits - 5) % 5) := by
            rw [hr, Nat.add_comm]
    · rw [show base32FlushD (fuel + 1) v bits =
        (if 5 ≤ bits then (v / 2 ^ (bits - 5)) % 32 :: base32FlushD fuel v (bits - 5)
         else []) from rfl, if_neg h5]
      have : v % 2 ^ bits < 2 ^ bits := Nat.mod_lt _ (Nat.pos_pow_of_pos _ (by omega))
      have hbb : bits % 5 = bits := by omega
      rw [hbb]
      rw [show beV 32 [] = 0 from rfl]
      rw [Nat.div_eq_of_lt this]

theorem base32EncodeLoopD_length : ∀ (ds : List Nat) (v bits : Nat), bits < 5 →
    (base32EncodeLoopD ds v bits).length = (bits + 8 * ds.length + 4) / 5
  | [], v, bits, h => by
    by_cases h0 : 0 < bits
    · rw [show base32EncodeLoopD [] v bits =
        (if 0 < bits then [(v * 2 ^ (5 - bits)) % 32] else []) from rfl, if_pos h0]
      simp
      omega
    · rw [show base32EncodeLoopD [] v bits =
        (if 0 < bits then [(v * 2 ^ (5 - bits)) % 32] else []) from rfl, if_neg h0]
      simp
      omega
  | d :: rest, v, bits, h => by
    rw [show base32EncodeLoopD (d :: rest) v bits =
      base32FlushD (bits + 8) (v * 256 + d) (bits + 8) ++
        base32EncodeLoopD rest (v * 256 + d) ((bits + 8) % 5) from rfl]
    rw [List.length_append, base32FlushD_length _ _ _ le_rfl,
      base32EncodeLoopD_length rest _ ((bits + 8) % 5) (by omega)]
    simp only [List.length_cons]
    omega

theorem base32EncodeLoopD_lt : ∀ (ds : List Nat) (v bits : Nat),
    ∀ d ∈ base32EncodeLoopD ds v bits, d < 32
  | [], v, bits, d, hd => by
    by_cases h0 : 0 < bits
    · rw [show base32EncodeLoopD [] v bits =
        (if 0 < bits then [(v * 2 ^ (5 - bits)) % 32] else []) from rfl, if_pos h0] at hd
      simp at hd
      omega
    · rw [show base32EncodeLoopD [] v bits =
        (if 0 < bits then [(v * 2 ^ (5 - bits)) % 32] else []) from rfl, if_neg h0] at hd
      simp at hd
  | e :: rest, v, bits, d, hd => by
    rw [show base32EncodeLoopD (e :: rest) v bits =
      base32FlushD (bits + 8) (v * 256 + e) (bits + 8) ++
        base32EncodeLoopD rest (v * 256 + e) ((bits + 8) % 5) from rfl] at hd
    rcases List.mem_append.mp hd with hd | hd
    · exact base32FlushD_lt _ _ _ d hd
    · exact base32EncodeLoopD_lt rest _ _ d hd

theorem base32EncodeLoopD_beV : ∀ (ds : List Nat) (v bits : Nat), bits < 5 →
    (∀ d ∈ ds, d < 256) →
    beV 32 (base32EncodeLoopD ds v bits) =
      (v % 2 ^ bits * 256 ^ ds.length + beV 256 ds) *
        2 ^ ((5 - (bits + 8 * ds.length) % 5) % 5)
  | [], v, bits, h, _ => by
    by_cases h0 : 0 < bits
    · rw [show base32EncodeLoopD [] v bits =
        (if 0 < bits then [(v * 2 ^ (5 - bits)) % 32] else []) from rfl, if_pos h0]
      rw [show beV 32 [v * 2 ^ (5 - bits) % 32] = v * 2 ^ (5 - bits) % 32 from by
        simp [beV]]
      rw [show (5 - (bits + 8 * ([] : List Nat).length) % 5) % 5 = 5 - bits from by
        simp
        omega]
      rw [show beV 256 ([] : List Nat) = 0 from rfl]
      simp only [List.length_nil, pow_zero, Nat.mul_one, Nat.add_zero]
      rw [show (32 : Nat) = 2 ^ bits * 2 ^ (5 - bits) from by
        rw [← pow_add, show bits + (5 - bits) = 5 from by omega]
        rfl]
      exact Nat.mul_mod_mul_right _ _ _
    · rw [show base32EncodeLoopD [] v bits =
        (if 0 < bits then [(v * 2 ^ (5 - bits)) % 32] else []) from rfl, if_neg h0]
      have : bits = 0 := by omega
      subst this
      simp [beV, Nat.mod_one]
  | d :: rest, v, bits, h, hds => by
    rw [show base32EncodeLoopD (d :: rest) v bits =
      base32FlushD (bits + 8) (v * 256 + d) (bits + 8) ++
        base32EncodeLoopD rest (v * 256 + d) ((bits + 8) % 5) from rfl]
    rw [beV_append, base32FlushD_beV _ _ _ le_rfl,
      base32EncodeLoopD_length rest _ ((bits + 8) % 5) (by omega),
      base32EncodeLoopD_beV rest (v * 256 + d) ((bits + 8) % 5) (by omega)
        (fun x hx => hds x (by simp [hx]))]
    have hd256 : d < 256 := hds d (by simp)
    have hW : (v * 256 + d) % 2 ^ (bits + 8) = v % 2 ^ bits * 256 + d := by
      have hsplit : v * 256 + d =
          v % 2 ^ bits * 256 + d + v / 2 ^ bits * (2 ^ bits * 256) := by
        conv_lhs => rw [← Nat.div_add_mod v (2 ^ bits)]
        ring
      have hpow : (2 : Nat) ^ (bits + 8) = 2 ^ bits * 256 := by
        rw [pow_add]
        rfl
      rw [hpow, hsplit, Nat.add_mul_mod_self_right]
      apply Nat.mod_eq_of_lt
      have hv : v % 2 ^ bits < 2 ^ bits := Nat.mod_lt _ (Nat.pos_pow_of_pos _ (by omega))
      calc v % 2 ^ bits * 256 + d < v % 2 ^ bits * 256 + 256 := by omega
        _ = (v % 2 ^ bits + 1) * 256 := by ring
        _ ≤ 2 ^ bits * 256 := Nat.mul_le_mul_right _ (by omega)
    have hmod5 : (5 - (bits + 8 * (d :: rest).length) % 5) % 5 =
        (5 - ((bits + 8) % 5 + 8 * rest.length) % 5) % 5 := by
      simp only [List.length_cons]
      omega
    have hWs : (v * 256 + d) % 2 ^ ((bits + 8) % 5) =
        (v * 256 + d) % 2 ^ (bits + 8) % 2 ^ ((bits + 8) % 5) := by
      rw [Nat.mod_mod_of_dvd]
      exact pow_dvd_pow 2 (by omega)
    have h32Y : (32 : Nat) ^ (((bits + 8) % 5 + 8 * rest.length + 4) / 5) =
        2 ^ ((bits + 8) % 5) * 256 ^ rest.length *
          2 ^ ((5 - ((bits + 8) % 5 + 8 * rest.length) % 5) % 5) := by
      rw [show (32 : Nat) = 2 ^ 5 from rfl, ← pow_mul,
        show (256 : Nat) = 2 ^ 8 from rfl, ← pow_mul, ← pow_add, ← pow_add]
      congr 1
      omega
    rw [hmod5, List.length_cons, hWs, h32Y]
    calc (v * 256 + d) % 2 ^ (bits + 8) / 2 ^ ((bits + 8) % 5) *
          (2 ^ ((bits + 8) % 5) * 256 ^ rest.length *
            2 ^ ((5 - ((bits + 8) % 5 + 8 * rest.length) % 5) % 5)) +
          ((v * 256 + d) % 2 ^ (bits + 8) % 2 ^ ((bits + 8) % 5) * 256 ^ rest.length +
            beV 256 rest) *
            2 ^ ((5 - ((bits + 8) % 5 + 8 * rest.length) % 5) % 5)
        = ((2 ^ ((bits + 8) % 5) *
              ((v * 256 + d) % 2 ^ (bits + 8) / 2 ^ ((bits + 8) % 5)) +
            (v * 256 + d) % 2 ^ (bits + 8) % 2 ^ ((bits + 8) % 5)) * 256 ^ rest.length +
            beV 256 rest) *
            2 ^ ((5 - ((bits + 8) % 5 + 8 * rest.length) % 5) % 5) := by
          ring
      _ = ((v * 256 + d) % 2 ^ (bits + 8) * 256 ^ rest.length + beV 256 rest) *
            2 ^ ((5 - ((bits + 8) % 5 + 8 * rest.length) % 5) % 5) := by
          rw [Nat.div_add_mod]
      _ = (v % 2 ^ bits * 256 ^ (rest.length + 1) + beV 256 (d :: rest)) *
            2 ^ ((5 - ((bits + 8) % 5 + 8 * rest.length) % 5) % 5) := by
          rw [hW, beV_cons]
          ring

theorem base32DecodeLoopD_length : ∀ (ds : List Nat) (w bits : Nat), bits < 8 →
    (base32DecodeLoopD ds w bits).length = (bits + 5 * ds.length) / 8
  | [], w, bits, h => by
    rw [show base32DecodeLoopD [] w bits = [] from rfl]
    simp
    omega
  | d :: rest, w, bits, h => by
    by_cases h8 : 8 ≤ bits + 5
    · rw [show base32DecodeLoopD (d :: rest) w bits =
        (w * 32 + d) / 2 ^ (bits + 5 - 8) % 256 ::
          base32DecodeLoopD rest (w * 32 + d) (bits + 5 - 8) from by
        rw [show base32DecodeLoopD (d :: rest) w bits = (if 8 ≤ bits + 5 then
          (w * 32 + d) / 2 ^ (bits + 5 - 8) % 256 ::
            base32DecodeLoopD rest (w * 32 + d) (bits + 5 - 8)
          else base32DecodeLoopD rest (w * 32 + d) (bits + 5)) from rfl, if_pos h8]]
      rw [List.length_cons, base32DecodeLoopD_length rest _ (bits + 5 - 8) (by omega)]
      simp only [List.length_cons]
      omega
    · rw [show base32DecodeLoopD (d :: rest) w bits =
        base32DecodeLoopD rest (w * 32 + d) (bits + 5) from by
        rw [show base32DecodeLoopD (d :: rest) w bits = (if 8 ≤ bits + 5 then
          (w * 32 + d) / 2 ^ (bits + 5 - 8) % 256 ::
            base32DecodeLoopD rest (w * 32 + d) (bits + 5 - 8)
          else base32DecodeLoopD rest (w * 32 + d) (bits + 5)) from rfl, if_neg h8]]
      rw [base32DecodeLoopD_length rest _ (bits + 5) (by omega)]
      simp only [List.length_cons]
      omega

theorem base32DecodeLoopD_lt : ∀ (ds : List Nat) (w bits : Nat),
    ∀ d ∈ base32DecodeLoopD ds w bits, d < 256
  | [], w, bits, d, hd => by simp [base32DecodeLoopD] at hd
  | e :: rest, w, bits, d, hd => by
    rw [show base32DecodeLoopD (e :: rest) w bits = (if 8 ≤ bits + 5 then
      (w * 32 + e) / 2 ^ (bits + 5 - 8) % 256 ::
        base32DecodeLoopD rest (w * 32 + e) (bits + 5 - 8)
      else base32DecodeLoopD rest (w * 32 + e) (bits + 5)) from rfl] at hd
    by_cases h8 : 8 ≤ bits + 5
    · rw [if_pos h8] at hd
      rcases List.mem_cons.mp hd with hd | hd
      · omega
      · exact base32DecodeLoopD_lt rest _ _ d hd
    · rw [if_neg h8] at hd
      exact base32DecodeLoopD_lt rest _ _ d hd

theorem base32DecodeLoopD_beV : ∀ (ds : List Nat) (w bits : Nat), bits < 8 →
    (∀ d ∈ ds, d < 32) →
    beV 256 (base32DecodeLoopD ds w bits) =
      (w % 2 ^ bits * 32 ^ ds.length + beV 32 ds) / 2 ^ ((bits + 5 * ds.length) % 8)
  | [], w, bits, h, _ => by
    rw [show base32DecodeLoopD [] w bits = [] from rfl]
    rw [show beV 256 ([] : List Nat) = 0 from rfl,
      show beV 32 ([] : List Nat) = 0 from rfl]
    simp only [List.length_nil, pow_zero, Nat.mul_one, Nat.add_zero, Nat.mul_zero]
    rw [Nat.mod_eq_of_lt (show bits < 8 from h)]
    rw [Nat.div_eq_of_lt (Nat.mod_lt _ (Nat.pos_pow_of_pos _ (by omega)))]
  | d :: rest, w, bits, h, hds => by
    have hd32 : d < 32 := hds d (by simp)
    have hW : (w * 32 + d) % 2 ^ (bits + 5) = w % 2 ^ bits * 32 + d := by
      have hsplit : w * 32 + d =
          w % 2 ^ bits * 32 + d + w / 2 ^ bits * (2 ^ bits * 32) := by
        conv_lhs => rw [← Nat.div_add_mod w (2 ^ bits)]
        ring
      have hpow : (2 : Nat) ^ (bits + 5) = 2 ^ bits * 32 := by
        rw [pow_add]
        rfl
      rw [hpow, hsplit, Nat.add_mul_mod_self_right]
      apply Nat.mod_eq_of_lt
      have hv : w % 2 ^ bits < 2 ^ bits := Nat.mod_lt _ (Nat.pos_pow_of_pos _ (by omega))
      calc w % 2 ^ bits * 32 + d < w % 2 ^ bits * 32 + 32 := by omega
        _ = (w % 2 ^ bits + 1) * 32 := by ring
        _ ≤ 2 ^ bits * 32 := Nat.mul_le_mul_right _ (by omega)
    have hnum : w % 2 ^ bits * 32 ^ (d :: rest).length + beV 32 (d :: rest) =
        (w * 32 + d) % 2 ^ (bits + 5) * 32 ^ rest.length + beV 32 rest := by
      rw [hW, beV_cons, List.length_cons]
      ring
    by_cases h8 : 8 ≤ bits + 5
    · rw [show base32DecodeLoopD (d :: rest) w bits =
        (w * 32 + d) / 2 ^ (bits + 5 - 8) % 256 ::
          base32DecodeLoopD rest (w * 32 + d) (bits + 5 - 8) from by
        rw [show base32DecodeLoopD (d :: rest) w bits = (if 8 ≤ bits + 5 then
          (w * 32 + d) / 2 ^ (bits + 5 - 8) % 256 ::
            base32DecodeLoopD rest (w * 32 + d) (bits + 5 - 8)
          else base32DecodeLoopD rest (w * 32 + d) (bits + 5)) from rfl, if_pos h8]]
      rw [beV_cons, base32DecodeLoopD_length rest _ (bits + 5 - 8) (by omega),
        base32DecodeLoopD_beV rest (w * 32 + d) (bits + 5 - 8) (by omega)
          (fun x hx => hds x (by simp [hx])), hnum]
      have hs3 : bits + 5 - 8 + 8 = bits + 5 := by omega
      have hWsplit : (w * 32 + d) % 2 ^ (bits + 5) =
          (w * 32 + d) / 2 ^ (bits + 5 - 8) % 256 * 2 ^ (bits + 5 - 8) +
            (w * 32 + d) % 2 ^ (bits + 5 - 8) := by
        have h1 : (w * 32 + d) % 2 ^ (bits + 5) / 2 ^ (bits + 5 - 8) =
            (w * 32 + d) / 2 ^ (bits + 5 - 8) % 256 := by
          rw [show (2 : Nat) ^ (bits + 5) = 2 ^ (bits + 5 - 8) * 256 from by
            rw [show (256 : Nat) = 2 ^ 8 from rfl, ← pow_add, hs3]]
          exact Nat.mod_mul_right_div_self _ _ _
        have h2 : (w * 32 + d) % 2 ^ (bits + 5) % 2 ^ (bits + 5 - 8) =
            (w * 32 + d) % 2 ^ (bits + 5 - 8) := by
          apply Nat.mod_mod_of_dvd
          exact pow_dvd_pow 2 (by omega)
        conv_lhs => rw [← Nat.div_add_mod ((w * 32 + d) % 2 ^ (bits + 5))
          (2 ^ (bits + 5 - 8))]
        rw [h1, h2, Nat.mul_comm]
      have hexp : (bits + 5 * (d :: rest).length) % 8 =
          (bits + 5 - 8 + 5 * rest.length) % 8 := by
        simp only [List.length_cons]
        omega
      have hsm : (2 : Nat) ^ (bits + 5 - 8) * 32 ^ rest.length =
          256 ^ ((bits + 5 - 8 + 5 * rest.length) / 8) *
            2 ^ ((bits + 5 - 8 + 5 * rest.length) % 8) := by
        rw [show (32 : Nat) = 2 ^ 5 from rfl, ← pow_mul,
          show (256 : Nat) = 2 ^ 8 from rfl, ← pow_mul, ← pow_add, ← pow_add]
        congr 1
        omega
      have hnum2 : (w * 32 + d) % 2 ^ (bits + 5) * 32 ^ rest.length + beV 32 rest =
          ((w * 32 + d) % 2 ^ (bits + 5 - 8) * 32 ^ rest.length + beV 32 rest) +
            (w * 32 + d) / 2 ^ (bits + 5 - 8) % 256 *
              256 ^ ((bits + 5 - 8 + 5 * rest.length) / 8) *
              2 ^ ((bits + 5 - 8 + 5 * rest.length) % 8) := by
        rw [hWsplit]
        calc ((w * 32 + d) / 2 ^ (bits + 5 - 8) % 256 * 2 ^ (bits + 5 - 8) +
              (w * 32 + d) % 2 ^ (bits + 5 - 8)) * 32 ^ rest.length + beV 32 rest
            = ((w * 32 + d) % 2 ^ (bits + 5 - 8) * 32 ^ rest.length + beV 32 rest) +
              (w * 32 + d) / 2 ^ (bits + 5 - 8) % 256 *
                (2 ^ (bits + 5 - 8) * 32 ^ rest.length) := by ring
          _ = ((w * 32 + d) % 2 ^ (bits + 5 - 8) * 32 ^ rest.length + beV 32 rest) +
              (w * 32 + d) / 2 ^ (bits + 5 - 8) % 256 *
                256 ^ ((bits + 5 - 8 + 5 * rest.length) / 8) *
                2 ^ ((bits + 5 - 8 + 5 * rest.length) % 8) := by
              rw [hsm]
              ring
      rw [hexp, hnum2, Nat.add_mul_div_right _ _ (Nat.pos_pow_of_pos _ (by omega))]
      exact Nat.add_comm _ _
    · rw [show base32DecodeLoopD (d :: rest) w bits =
        base32DecodeLoopD rest (w * 32 + d) (bits + 5) from by
        rw [show base32DecodeLoopD (d :: rest) w bits = (if 8 ≤ bits + 5 then
          (w * 32 + d) / 2 ^ (bits + 5 - 8) % 256 ::
            base32DecodeLoopD rest (w * 32 + d) (bits + 5 - 8)
          else base32DecodeLoopD rest (w * 32 + d) (bits + 5)) from rfl, if_neg h8]]
      rw [base32DecodeLoopD_beV rest (w * 32 + d) (bits + 5) (by omega)
        (fun x hx => hds x (by simp [hx])), hnum]
      have hexp2 : (bits + 5 * (d :: rest).length) % 8 =
          (bits + 5 + 5 * rest.length) % 8 := by
        simp only [List.length_cons]
        omega
      rw [hexp2]

theorem jsIndexOfAux_cases : ∀ (l : List Char) (ch : Char) (i : Nat),
    jsIndexOfAux l ch i = -1 ∨
      ((i : Int) ≤ jsIndexOfAux l ch i ∧ jsIndexOfAux l ch i < (i : Int) + l.length)
  | [], ch, i => Or.inl rfl
  | c :: cs, ch, i => by
    by_cases hc : c = ch
    · right
      rw [show jsIndexOfAux (c :: cs) ch i = if c = ch then (i : Int)
        else jsIndexOfAux cs ch (i + 1) from rfl, if_pos hc]
      constructor
      · exact le_refl _
      · have : (0 : Int) < ((c :: cs).length : Int) := by
          simp only [List.length_cons]
          push_cast
          omega
        omega
    · rw [show jsIndexOfAux (c :: cs) ch i = if c = ch then (i : Int)
        else jsIndexOfAux cs ch (i + 1) from rfl, if_neg hc]
      rcases jsIndexOfAux_cases cs ch (i + 1) with h | ⟨h1, h2⟩
      · exact Or.inl h
      · right
        push_cast at h1 h2 ⊢
        constructor
        · omega
        · simp only [List.length_cons]
          push_cast
          omega

theorem jsIndexOf_bound (l : List Char) (ch : Char) (h : jsIndexOf l ch ≠ -1) :
    0 ≤ jsIndexOf l ch ∧ jsIndexOf l ch < (l.length : Int) := by
  rcases jsIndexOfAux_cases l ch 0 with h0 | ⟨h1, h2⟩
  · exact absurd h0 h
  · unfold jsIndexOf
    constructor
    · simpa using h1
    · simpa using h2

theorem window_eq {x y : Nat} (B s t : Nat) (h : x % 2 ^ B = y % 2 ^ B)
    (hst : s + t ≤ B) : x / 2 ^ s % 2 ^ t = y / 2 ^ s % 2 ^ t := by
  have key : ∀ z : Nat, z / 2 ^ s % 2 ^ t = z % 2 ^ (s + t) / 2 ^ s := by
    intro z
    rw [show (2 : Nat) ^ (s + t) = 2 ^ s * 2 ^ t from by rw [← pow_add]]
    rw [Nat.mod_mul_right_div_self]
  rw [key x, key y]
  have hx : x % 2 ^ (s + t) = x % 2 ^ B % 2 ^ (s + t) :=
    (Nat.mod_mod_of_dvd x (pow_dvd_pow 2 hst)).symm
  have hy : y % 2 ^ (s + t) = y % 2 ^ B % 2 ^ (s + t) :=
    (Nat.mod_mod_of_dvd y (pow_dvd_pow 2 hst)).symm
  rw [hx, hy, h]

theorem mul32_add_mod (tv w d bits : Nat) (h : tv % 2 ^ bits = w % 2 ^ bits) :
    (32 * tv + d) % 2 ^ (bits + 5) = (32 * w + d) % 2 ^ (bits + 5) := by
  have key : ∀ z : Nat, (32 * z + d) % 2 ^ (bits + 5) =
      (32 * (z % 2 ^ bits) + d) % 2 ^ (bits + 5) := by
    intro z
    conv_lhs => rw [← Nat.div_add_mod z (2 ^ bits)]
    rw [show 32 * (2 ^ bits * (z / 2 ^ bits) + z % 2 ^ bits) + d =
      32 * (z % 2 ^ bits) + d + z / 2 ^ bits * (2 ^ bits * 32) from by ring]
    rw [show (2 : Nat) ^ (bits + 5) = 2 ^ bits * 32 from by rw [pow_add]; rfl]
    rw [Nat.add_mul_mod_self_right]
  rw [key tv, key w, h]

theorem toUint32_shl5_add (v ci : Int) (h0 : 0 ≤ ci) :
    toUint32 (jsShl5 v + ci) = (32 * toUint32 v + ci.toNat) % 4294967296 := by
  unfold toUint32 jsShl5 jsToInt32
  simp only []
  rw [show (32 * v) % 4294967296 = (32 * (v % 4294967296)) % 4294967296 from by
    conv_lhs => rw [Int.mul_emod]
    conv_rhs => rw [Int.mul_emod]
    rw [Int.emod_emod_of_dvd _ dvd_rfl]]
  split_ifs with h1
  · omega
  · omega

theorem base32DecodeLoop_eq_loopD : ∀ (cs : List Char) (v : Int) (w bits : Nat),
    bits < 8 →
    (∀ ch ∈ cs, jsIndexOf BASE32_ALPHABET ch ≠ -1) →
    toUint32 v % 2 ^ bits = w % 2 ^ bits →
    base32DecodeLoop cs v bits =
      base32DecodeLoopD (cs.map fun ch => (jsIndexOf BASE32_ALPHABET ch).toNat) w bits
  | [], v, w, bits, _, _, _ => rfl
  | ch :: rest, v, w, bits, hb, hv, hw => by
    have hch : jsIndexOf BASE32_ALPHABET ch ≠ -1 := hv ch (by simp)
    have hbound := jsIndexOf_bound BASE32_ALPHABET ch hch
    have hlen32 : (BASE32_ALPHABET.length : Int) = 32 := by decide
    have hci32 : (jsIndexOf BASE32_ALPHABET ch).toNat < 32 := by omega
    have hstep : toUint32 (jsShl5 v + jsIndexOf BASE32_ALPHABET ch) =
        (32 * toUint32 v + (jsIndexOf BASE32_ALPHABET ch).toNat) % 4294967296 :=
      toUint32_shl5_add v _ hbound.1
    have hrel : ∀ k : Nat, k ≤ bits + 5 →
        toUint32 (jsShl5 v + jsIndexOf BASE32_ALPHABET ch) % 2 ^ k =
        (w * 32 + (jsIndexOf BASE32_ALPHABET ch).toNat) % 2 ^ k := by
      intro k hk
      rw [hstep]
      have h1 : (32 * toUint32 v + (jsIndexOf BASE32_ALPHABET ch).toNat) %
          4294967296 % 2 ^ k =
          (32 * toUint32 v + (jsIndexOf BASE32_ALPHABET ch).toNat) % 2 ^ k := by
        apply Nat.mod_mod_of_dvd
        have : (4294967296 : Nat) = 2 ^ 32 := by norm_num
        rw [this]
        exact pow_dvd_pow 2 (by omega)
      rw [h1]
      have h2 := mul32_add_mod (toUint32 v) w ((jsIndexOf BASE32_ALPHABET ch).toNat)
        bits hw
      calc (32 * toUint32 v + (jsIndexOf BASE32_ALPHABET ch).toNat) % 2 ^ k
          = (32 * toUint32 v + (jsIndexOf BASE32_ALPHABET ch).toNat) %
              2 ^ (bits + 5) % 2 ^ k := by
            rw [Nat.mod_mod_of_dvd _ (pow_dvd_pow 2 hk)]
        _ = (32 * w + (jsIndexOf BASE32_ALPHABET ch).toNat) % 2 ^ (bits + 5) %
              2 ^ k := by rw [h2]
        _ = (w * 32 + (jsIndexOf BASE32_ALPHABET ch).toNat) % 2 ^ k := by
            rw [Nat.mod_mod_of_dvd _ (pow_dvd_pow 2 hk), Nat.mul_comm]
    rw [show base32DecodeLoop (ch :: rest) v bits =
      (if 8 ≤ bits + 5 then
        (toUint32 (if jsIndexOf BASE32_ALPHABET ch = -1 then -1
          else jsShl5 v + jsIndexOf BASE32_ALPHABET ch) / 2 ^ (bits + 5 - 8)) % 256 ::
          base32DecodeLoop rest (if jsIndexOf BASE32_ALPHABET ch = -1 then -1
            else jsShl5 v + jsIndexOf BASE32_ALPHABET ch) (bits + 5 - 8)
       else base32DecodeLoop rest (if jsIndexOf BASE32_ALPHABET ch = -1 then -1
         else jsShl5 v + jsIndexOf BASE32_ALPHABET ch) (bits + 5)) from rfl]
    rw [if_neg hch]
    rw [List.map_cons]
    rw [show base32DecodeLoopD ((jsIndexOf BASE32_ALPHABET ch).toNat ::
        rest.map fun c => (jsIndexOf BASE32_ALPHABET c).toNat) w bits =
      (if 8 ≤ bits + 5 then
        (w * 32 + (jsIndexOf BASE32_ALPHABET ch).toNat) / 2 ^ (bits + 5 - 8) % 256 ::
          base32DecodeLoopD (rest.map fun c => (jsIndexOf BASE32_ALPHABET c).toNat)
            (w * 32 + (jsIndexOf BASE32_ALPHABET ch).toNat) (bits + 5 - 8)
       else base32DecodeLoopD (rest.map fun c => (jsIndexOf BASE32_ALPHABET c).toNat)
         (w * 32 + (jsIndexOf BASE32_ALPHABET ch).toNat) (bits + 5)) from rfl]
    by_cases h8 : 8 ≤ bits + 5
    · rw [if_pos h8, if_pos h8]
      have hbyte : toUint32 (jsShl5 v + jsIndexOf BASE32_ALPHABET ch) /
          2 ^ (bits + 5 - 8) % 256 =
          (w * 32 + (jsIndexOf BASE32_ALPHABET ch).toNat) / 2 ^ (bits + 5 - 8) %
            256 := by
        have := window_eq (bits + 5) (bits + 5 - 8) 8 (hrel (bits + 5) le_rfl)
          (by omega)
        simpa using this
      rw [hbyte]
      congr 1
      exact base32DecodeLoop_eq_loopD rest _ _ (bits + 5 - 8) (by omega)
        (fun c hc => hv c (by simp [hc])) (hrel (bits + 5 - 8) (by omega))
    · rw [if_neg h8, if_neg h8]
      exact base32DecodeLoop_eq_loopD rest _ _ (bits + 5) (by omega)
        (fun c hc => hv c (by simp [hc])) (hrel (bits + 5) le_rfl)

theorem alphabet32_idx : ∀ d, d < 32 →
    jsIndexOf BASE32_ALPHABET (BASE32_ALPHABET.getD d 'A') = (d : Int) := by
  decide

/-- Round-trip of the base32 codec: decoding the encoding of any byte
sequence returns it exactly (the trailing padding bits of the final symbol
are discarded by the decoder). -/
theorem base32_roundtrip (data : List Nat) (h : ∀ x ∈ data, x < 256) :
    base32rfcDecode (base32rfcEncode data) = data := by
  have hDlt : ∀ d ∈ base32EncodeLoopD data 0 0, d < 32 := base32EncodeLoopD_lt data 0 0
  have hDlen : (base32EncodeLoopD data 0 0).length = (8 * data.length + 4) / 5 := by
    simpa using base32EncodeLoopD_length data 0 0 (by omega)
  have hDbeV : beV 32 (base32EncodeLoopD data 0 0) =
      beV 256 data * 2 ^ ((5 - 8 * data.length % 5) % 5) := by
    have := base32EncodeLoopD_beV data 0 0 (by omega) h
    simpa [Nat.mod_one] using this
  have henc : base32rfcEncode data =
      (base32EncodeLoopD data 0 0).map (fun d => BASE32_ALPHABET.getD d 'A') := rfl
  have hvalid : ∀ ch ∈ base32rfcEncode data, jsIndexOf BASE32_ALPHABET ch ≠ -1 := by
    rw [henc]
    intro ch hch
    rcases List.mem_map.mp hch with ⟨d, hd, rfl⟩
    rw [alphabet32_idx d (hDlt d hd)]
    omega
  have hmapback : (base32rfcEncode data).map
      (fun ch => (jsIndexOf BASE32_ALPHABET ch).toNat) = base32EncodeLoopD data 0 0 := by
    rw [henc, List.map_map]
    have : ∀ d ∈ base32EncodeLoopD data 0 0,
        ((fun ch => (jsIndexOf BASE32_ALPHABET ch).toNat) ∘
          (fun d => BASE32_ALPHABET.getD d 'A')) d = id d := by
      intro d hd
      simp only [Function.comp_apply, id_eq]
      rw [alphabet32_idx d (hDlt d hd)]
      exact Int.toNat_natCast d
    rw [List.map_congr_left this, List.map_id]
  have hdec : base32rfcDecode (base32rfcEncode data) =
      base32DecodeLoopD (base32EncodeLoopD data 0 0) 0 0 := by
    rw [show base32rfcDecode (base32rfcEncode data) =
      base32DecodeLoop (base32rfcEncode data) 0 0 from rfl]
    rw [base32DecodeLoop_eq_loopD (base32rfcEncode data) 0 0 0 (by omega) hvalid
      (by rfl), hmapback]
  rw [hdec]
  have houtlen : (base32DecodeLoopD (base32EncodeLoopD data 0 0) 0 0).length =
      data.length := by
    rw [base32DecodeLoopD_length _ 0 0 (by omega), hDlen]
    omega
  have houtlt : ∀ d ∈ base32DecodeLoopD (base32EncodeLoopD data 0 0) 0 0, d < 256 :=
    base32DecodeLoopD_lt _ 0 0
  have houtbeV : beV 256 (base32DecodeLoopD (base32EncodeLoopD data 0 0) 0 0) =
      beV 256 data := by
    rw [base32DecodeLoopD_beV _ 0 0 (by omega) hDlt, hDlen, hDbeV]
    have hexp : (5 * ((8 * data.length + 4) / 5)) % 8 =
        (5 - 8 * data.length % 5) % 5 := by
      have h0 : 8 * data.length % 5 = 0 ∨ 8 * data.length % 5 = 1 ∨
          8 * data.length % 5 = 2 ∨ 8 * data.length % 5 = 3 ∨
          8 * data.length % 5 = 4 := by omega
      rcases h0 with h' | h' | h' | h' | h' <;> omega
    simp only [pow_zero, Nat.mod_one, Nat.zero_mul, Nat.zero_add]
    rw [hexp]
    exact Nat.mul_div_cancel _ (Nat.pos_pow_of_pos _ (by omega))
  exact beV_inj 256 (by omega) _ _ houtlen houtlt h houtbeV

/-! ## Lemmas about the base64url codec -/

theorem alphabet64_idx : ∀ d, d < 64 →
    jsIndexOf B64_ALPHABET (B64_ALPHABET.getD d 'A') = (d : Int) := by
  decide

theorem b64getD_ne_eq : ∀ d, d < 64 → B64_ALPHABET.getD d 'A' ≠ '=' := by
  decide

theorem b64swap_back : ∀ d, d < 64 →
    b64UrlSwapBack (b64UrlSwap (B64_ALPHABET.getD d 'A')) = B64_ALPHABET.getD d 'A' := by
  decide

theorem atobLoop_cons (ch : Char) (rest : List Char) (v bits : Nat) (d : Nat)
    (hd : d < 64) (hch : ch = B64_ALPHABET.getD d 'A') :
    atobLoop (ch :: rest) v bits =
      if 8 ≤ bits + 6 then
        ((v * 64 + d) / 2 ^ (bits + 6 - 8) % 256 :: ·) <$>
          atobLoop rest (v * 64 + d) (bits + 6 - 8)
      else atobLoop rest (v * 64 + d) (bits + 6) := by
  subst hch
  rw [show atobLoop (B64_ALPHABET.getD d 'A' :: rest) v bits =
    (let ci := jsIndexOf B64_ALPHABET (B64_ALPHABET.getD d 'A')
     if ci = -1 then none
     else
       let v2 := v * 64 + ci.toNat
       if 8 ≤ bits + 6 then
         ((v2 / 2 ^ (bits + 6 - 8)) % 256 :: ·) <$> atobLoop rest v2 (bits + 6 - 8)
       else atobLoop rest v2 (bits + 6)) from rfl]
  simp only [alphabet64_idx d hd]
  rw [if_neg (by omega)]
  simp only [Int.toNat_natCast]

theorem atob_body : ∀ (data : List Nat), (∀ x ∈ data, x < 256) →
    ∀ v : Nat, atobLoop ((btoa data).filter (· ≠ '=')) v 0 = some data
  | [], _, v => rfl
  | [a], h, v => by
    have ha : a < 256 := h a (by simp)
    rw [show btoa [a] = [B64_ALPHABET.getD (a / 4) 'A',
      B64_ALPHABET.getD (a % 4 * 16) 'A', '=', '='] from rfl]
    rw [List.filter_cons_of_pos (by simp only [decide_eq_true_eq]; exact b64getD_ne_eq (a / 4) (by omega)),
      List.filter_cons_of_pos (by simp only [decide_eq_true_eq]; exact b64getD_ne_eq (a % 4 * 16) (by omega)),
      List.filter_cons_of_neg (by simp),
      List.filter_cons_of_neg (by simp)]
    rw [show List.filter (· ≠ '=') [] = [] from rfl]
    rw [atobLoop_cons _ _ v 0 (a / 4) (by omega) rfl]
    rw [if_neg (by omega)]
    rw [atobLoop_cons _ _ _ 6 (a % 4 * 16) (by omega) rfl]
    rw [if_pos (by omega)]
    rw [show atobLoop [] ((v * 64 + a / 4) * 64 + a % 4 * 16) (6 + 6 - 8) =
      some [] from rfl]
    rw [show ((v * 64 + a / 4) * 64 + a % 4 * 16) / 2 ^ (6 + 6 - 8) % 256 = a from by
      norm_num
      omega]
    rfl
  | [a, b], h, v => by
    have ha : a < 256 := h a (by simp)
    have hb : b < 256 := h b (by simp)
    rw [show btoa [a, b] = [B64_ALPHABET.getD (a / 4) 'A',
      B64_ALPHABET.getD (a % 4 * 16 + b / 16) 'A',
      B64_ALPHABET.getD (b % 16 * 4) 'A', '='] from rfl]
    rw [List.filter_cons_of_pos (by simp only [decide_eq_true_eq]; exact b64getD_ne_eq (a / 4) (by omega)),
      List.filter_cons_of_pos
        (by simp only [decide_eq_true_eq]; exact b64getD_ne_eq (a % 4 * 16 + b / 16) (by omega)),
      List.filter_cons_of_pos (by simp only [decide_eq_true_eq]; exact b64getD_ne_eq (b % 16 * 4) (by omega)),
      List.filter_cons_of_neg (by simp)]
    rw [show List.filter (· ≠ '=') [] = [] from rfl]
    rw [atobLoop_cons _ _ v 0 (a / 4) (by omega) rfl]
    rw [if_neg (by omega)]
    rw [atobLoop_cons _ _ _ 6 (a % 4 * 16 + b / 16) (by omega) rfl]
    rw [if_pos (by omega)]
    rw [atobLoop_cons _ _ _ (6 + 6 - 8) (b % 16 * 4) (by omega) rfl]
    rw [if_pos (by norm_num)]
    rw [show atobLoop [] (((v * 64 + a / 4) * 64 + (a % 4 * 16 + b / 16)) * 64 +
      b % 16 * 4) (6 + 6 - 8 + 6 - 8) = some [] from rfl]
    rw [show ((v * 64 + a / 4) * 64 + (a % 4 * 16 + b / 16)) / 2 ^ (6 + 6 - 8) %
      256 = a from by norm_num; omega]
    rw [show (((v * 64 + a / 4) * 64 + (a % 4 * 16 + b / 16)) * 64 + b % 16 * 4) /
      2 ^ (6 + 6 - 8 + 6 - 8) % 256 = b from by norm_num; omega]
    rfl
  | a :: b :: c :: rest, h, v => by
    have ha : a < 256 := h a (by simp)
    have hb : b < 256 := h b (by simp)
    have hc : c < 256 := h c (by simp)
    rw [show btoa (a :: b :: c :: rest) = B64_ALPHABET.getD (a / 4) 'A' ::
      B64_ALPHABET.getD (a % 4 * 16 + b / 16) 'A' ::
      B64_ALPHABET.getD (b % 16 * 4 + c / 64) 'A' ::
      B64_ALPHABET.getD (c % 64) 'A' :: btoa rest from rfl]
    rw [List.filter_cons_of_pos (by simp only [decide_eq_true_eq]; exact b64getD_ne_eq (a / 4) (by omega)),
      List.filter_cons_of_pos
        (by simp only [decide_eq_true_eq]; exact b64getD_ne_eq (a % 4 * 16 + b / 16) (by omega)),
      List.filter_cons_of_pos
        (by simp only [decide_eq_true_eq]; exact b64getD_ne_eq (b % 16 * 4 + c / 64) (by omega)),
      List.filter_cons_of_pos (by simp only [decide_eq_true_eq]; exact b64getD_ne_eq (c % 64) (by omega))]
    rw [atobLoop_cons _ _ v 0 (a / 4) (by omega) rfl]
    rw [if_neg (by omega)]
    rw [atobLoop_cons _ _ _ 6 (a % 4 * 16 + b / 16) (by omega) rfl]
    rw [if_pos (by omega)]
    rw [atobLoop_cons _ _ _ (6 + 6 - 8) (b % 16 * 4 + c / 64) (by omega) rfl]
    rw [if_pos (by norm_num)]
    rw [atobLoop_cons _ _ _ (6 + 6 - 8 + 6 - 8) (c % 64) (by omega) rfl]
    rw [if_pos (by norm_num)]
    rw [atob_body rest (fun x hx => h x (by simp [hx]))
      ((((v * 64 + a / 4) * 64 + (a % 4 * 16 + b / 16)) * 64 +
        (b % 16 * 4 + c / 64)) * 64 + c % 64)]
    rw [show ((v * 64 + a / 4) * 64 + (a % 4 * 16 + b / 16)) / 2 ^ (6 + 6 - 8) %
      256 = a from by norm_num; omega]
    rw [show (((v * 64 + a / 4) * 64 + (a % 4 * 16 + b / 16)) * 64 +
      (b % 16 * 4 + c / 64)) / 2 ^ (6 + 6 - 8 + 6 - 8) % 256 = b from by
      norm_num; omega]
    rw [show ((((v * 64 + a / 4) * 64 + (a % 4 * 16 + b / 16)) * 64 +
      (b % 16 * 4 + c / 64)) * 64 + c % 64) / 2 ^ (6 + 6 - 8 + 6 - 8 + 6 - 8) %
      256 = c from by norm_num; omega]
    rfl

theorem btoa_chars : ∀ (data : List Nat), (∀ x ∈ data, x < 256) →
    ∀ ch ∈ btoa data, ch = '=' ∨ ∃ d, d < 64 ∧ ch = B64_ALPHABET.getD d 'A'
  | [], _, ch, hch => by simp [btoa] at hch
  | [a], h, ch, hch => by
    have ha : a < 256 := h a (by simp)
    rw [show btoa [a] = [B64_ALPHABET.getD (a / 4) 'A',
      B64_ALPHABET.getD (a % 4 * 16) 'A', '=', '='] from rfl] at hch
    simp only [List.mem_cons, List.not_mem_nil, or_false] at hch
    rcases hch with rfl | rfl | rfl | rfl
    · exact Or.inr ⟨a / 4, by omega, rfl⟩
    · exact Or.inr ⟨a % 4 * 16, by omega, rfl⟩
    · exact Or.inl rfl
    · exact Or.inl rfl
  | [a, b], h, ch, hch => by
    have ha : a < 256 := h a (by simp)
    have hb : b < 256 := h b (by simp)
    rw [show btoa [a, b] = [B64_ALPHABET.getD (a / 4) 'A',
      B64_ALPHABET.getD (a % 4 * 16 + b / 16) 'A',
      B64_ALPHABET.getD (b % 16 * 4) 'A', '='] from rfl] at hch
    simp only [List.mem_cons, List.not_mem_nil, or_false] at hch
    rcases hch with rfl | rfl | rfl | rfl
    · exact Or.inr ⟨a / 4, by omega, rfl⟩
    · exact Or.inr ⟨a % 4 * 16 + b / 16, by omega, rfl⟩
    · exact Or.inr ⟨b % 16 * 4, by omega, rfl⟩
    · exact Or.inl rfl
  | a :: b :: c :: rest, h, ch, hch => by
    have ha : a < 256 := h a (by simp)
    have hb : b < 256 := h b (by simp)
    have hc : c < 256 := h c (by simp)
    rw [show btoa (a :: b :: c :: rest) = B64_ALPHABET.getD (a / 4) 'A' ::
      B64_ALPHABET.getD (a % 4 * 16 + b / 16) 'A' ::
      B64_ALPHABET.getD (b % 16 * 4 + c / 64) 'A' ::
      B64_ALPHABET.getD (c % 64) 'A' :: btoa rest from rfl] at hch
    simp only [List.mem_cons] at hch
    rcases hch with rfl | rfl | rfl | rfl | hch
    · exact Or.inr ⟨a / 4, by omega, rfl⟩
    · exact Or.inr ⟨a % 4 * 16 + b / 16, by omega, rfl⟩
    · exact Or.inr ⟨b % 16 * 4 + c / 64, by omega, rfl⟩
    · exact Or.inr ⟨c % 64, by omega, rfl⟩
    · exact btoa_chars rest (fun x hx => h x (by simp [hx])) ch hch

theorem b64_map_swapBack (data : List Nat) (h : ∀ x ∈ data, x < 256) :
    (base64urlEncode data).map b64UrlSwapBack = (btoa data).filter (· ≠ '=') := by
  unfold base64urlEncode
  rw [List.map_map]
  have : ∀ ch ∈ (btoa data).filter (· ≠ '='),
      (b64UrlSwapBack ∘ b64UrlSwap) ch = id ch := by
    intro ch hch
    have hmem : ch ∈ btoa data := List.mem_of_mem_filter hch
    have hne : ch ≠ '=' := by
      have := List.of_mem_filter hch
      simpa using this
    rcases btoa_chars data h ch hmem with rfl | ⟨d, hd, rfl⟩
    · exact absurd rfl hne
    · simpa using b64swap_back d hd
  rw [List.map_congr_left this, List.map_id]

theorem btoaBody_length : ∀ (data : List Nat), (∀ x ∈ data, x < 256) →
    ((btoa data).filter (· ≠ '=')).length = (4 * data.length + 2) / 3
  | [], _ => rfl
  | [a], h => by
    have ha : a < 256 := h a (by simp)
    rw [show btoa [a] = [B64_ALPHABET.getD (a / 4) 'A',
      B64_ALPHABET.getD (a % 4 * 16) 'A', '=', '='] from rfl]
    rw [List.filter_cons_of_pos (by simp only [decide_eq_true_eq]; exact b64getD_ne_eq (a / 4) (by omega)),
      List.filter_cons_of_pos (by simp only [decide_eq_true_eq]; exact b64getD_ne_eq (a % 4 * 16) (by omega)),
      List.filter_cons_of_neg (by simp),
      List.filter_cons_of_neg (by simp)]
    simp
  | [a, b], h => by
    have ha : a < 256 := h a (by simp)
    have hb : b < 256 := h b (by simp)
    rw [show btoa [a, b] = [B64_ALPHABET.getD (a / 4) 'A',
      B64_ALPHABET.getD (a % 4 * 16 + b / 16) 'A',
      B64_ALPHABET.getD (b % 16 * 4) 'A', '='] from rfl]
    rw [List.filter_cons_of_pos (by simp only [decide_eq_true_eq]; exact b64getD_ne_eq (a / 4) (by omega)),
      List.filter_cons_of_pos
        (by simp only [decide_eq_true_eq]; exact b64getD_ne_eq (a % 4 * 16 + b / 16) (by omega)),
      List.filter_cons_of_pos (by simp only [decide_eq_true_eq]; exact b64getD_ne_eq (b % 16 * 4) (by omega)),
      List.filter_cons_of_neg (by simp)]
    simp
  | a :: b :: c :: rest, h => by
    have ha : a < 256 := h a (by simp)
    have hb : b < 256 := h b (by simp)
    have hc : c < 256 := h c (by simp)
    rw [show btoa (a :: b :: c :: rest) = B64_ALPHABET.getD (a / 4) 'A' ::
      B64_ALPHABET.getD (a % 4 * 16 + b / 16) 'A' ::
      B64_ALPHABET.getD (b % 16 * 4 + c / 64) 'A' ::
      B64_ALPHABET.getD (c % 64) 'A' :: btoa rest from rfl]
    rw [List.filter_cons_of_pos (by simp only [decide_eq_true_eq]; exact b64getD_ne_eq (a / 4) (by omega)),
      List.filter_cons_of_pos
        (by simp only [decide_eq_true_eq]; exact b64getD_ne_eq (a % 4 * 16 + b / 16) (by omega)),
      List.filter_cons_of_pos
        (by simp only [decide_eq_true_eq]; exact b64getD_ne_eq (b % 16 * 4 + c / 64) (by omega)),
      List.filter_cons_of_pos (by simp only [decide_eq_true_eq]; exact b64getD_ne_eq (c % 64) (by omega))]
    rw [List.length_cons, List.length_cons, List.length_cons, List.length_cons,
      btoaBody_length rest (fun x hx => h x (by simp [hx]))]
    simp only [List.length_cons]
    omega

theorem stripAtob_no_eq (L : List Char) (h : ∀ ch ∈ L, ch ≠ '=') :
    stripAtobPadding L = L := by
  unfold stripAtobPadding
  by_cases h4 : L.length % 4 = 0
  · rw [if_pos h4]
    cases hc : L.reverse with
    | nil => rfl
    | cons c1 tail =>
      have hc1 : c1 ≠ '=' := by
        apply h
        have : c1 ∈ L.reverse := by rw [hc]; simp
        exact List.mem_reverse.mp this
      cases tail with
      | nil =>
        show (if c1 = '=' then [] else L) = L
        rw [if_neg hc1]
      | cons c2 rest =>
        show (if c1 = '=' then
          (if c2 = '=' then rest.reverse else (c2 :: rest).reverse) else L) = L
        rw [if_neg hc1]
  · rw [if_neg h4]

theorem stripAtob_pad2 (L : List Char) (hlen : (L.length + 2) % 4 = 0) :
    stripAtobPadding (L ++ ['=', '=']) = L := by
  unfold stripAtobPadding
  rw [if_pos (by simp; omega)]
  rw [show (L ++ ['=', '=']).reverse = '=' :: '=' :: L.reverse from by simp]
  show (if ('=' : Char) = '=' then
    (if ('=' : Char) = '=' then L.reverse.reverse else ('=' :: L.reverse).reverse)
    else L ++ ['=', '=']) = L
  rw [if_pos rfl, if_pos rfl, List.reverse_reverse]

theorem stripAtob_pad1 (L : List Char) (h : ∀ ch ∈ L, ch ≠ '=')
    (hlen : (L.length + 1) % 4 = 0) :
    stripAtobPadding (L ++ ['=']) = L := by
  unfold stripAtobPadding
  rw [if_pos (by simp; omega)]
  rw [show (L ++ ['=']).reverse = '=' :: L.reverse from by simp]
  cases hc : L.reverse with
  | nil =>
    exfalso
    have : L = [] := by simpa using congrArg List.reverse hc
    rw [this] at hlen
    simp at hlen
  | cons c2 rest =>
    have hc2 : c2 ≠ '=' := by
      apply h
      have : c2 ∈ L.reverse := by rw [hc]; simp
      exact List.mem_reverse.mp this
    show (if ('=' : Char) = '=' then
      (if c2 = '=' then rest.reverse else (c2 :: rest).reverse) else L ++ ['=']) = L
    rw [if_pos rfl, if_neg hc2, ← hc, List.reverse_reverse]

/-- Round-trip of the base64url codec: decoding the encoding of any byte
sequence returns it exactly. -/
theorem base64url_roundtrip (data : List Nat) (h : ∀ x ∈ data, x < 256) :
    base64urlDecode (base64urlEncode data) = some data := by
  have hswap := b64_map_swapBack data h
  have hnoeq : ∀ ch ∈ (btoa data).filter (· ≠ '='), ch ≠ '=' := by
    intro ch hch
    have := List.of_mem_filter hch
    simpa using this
  have hlen := btoaBody_length data h
  rw [show base64urlDecode (base64urlEncode data) =
    atob (if ((base64urlEncode data).map b64UrlSwapBack).length % 4 > 0
      then (base64urlEncode data).map b64UrlSwapBack ++
        List.replicate (4 - ((base64urlEncode data).map b64UrlSwapBack).length % 4) '='
      else (base64urlEncode data).map b64UrlSwapBack) from rfl]
  rw [hswap]
  have h3 : data.length % 3 = 0 ∨ data.length % 3 = 1 ∨ data.length % 3 = 2 := by
    omega
  rcases h3 with h3 | h3 | h3
  · have hmod : ((btoa data).filter (· ≠ '=')).length % 4 = 0 := by
      rw [hlen]; omega
    rw [if_neg (by omega)]
    rw [show atob ((btoa data).filter (· ≠ '=')) =
      (if (stripAtobPadding ((btoa data).filter (· ≠ '='))).length % 4 = 1 then none
       else atobLoop (stripAtobPadding ((btoa data).filter (· ≠ '='))) 0 0) from rfl]
    rw [stripAtob_no_eq _ hnoeq]
    rw [if_neg (by omega)]
    exact atob_body data h 0
  · have hmod : ((btoa data).filter (· ≠ '=')).length % 4 = 2 := by
      rw [hlen]; omega
    rw [if_pos (by omega)]
    rw [show 4 - ((btoa data).filter (· ≠ '=')).length % 4 = 2 from by omega]
    rw [show List.replicate 2 '=' = ['=', '='] from rfl]
    rw [show atob ((btoa data).filter (· ≠ '=') ++ ['=', '=']) =
      (if (stripAtobPadding ((btoa data).filter (· ≠ '=') ++ ['=', '='])).length % 4 =
          1 then none
       else atobLoop (stripAtobPadding ((btoa data).filter (· ≠ '=') ++ ['=', '=']))
         0 0) from rfl]
    rw [stripAtob_pad2 _ (by omega)]
    rw [if_neg (by omega)]
    exact atob_body data h 0
  · have hmod : ((btoa data).filter (· ≠ '=')).length % 4 = 3 := by
      rw [hlen]; omega
    rw [if_pos (by omega)]
    rw [show 4 - ((btoa data).filter (· ≠ '=')).length % 4 = 1 from by omega]
    rw [show List.replicate 1 '=' = ['='] from rfl]
    rw [show atob ((btoa data).filter (· ≠ '=') ++ ['=']) =
      (if (stripAtobPadding ((btoa data).filter (· ≠ '=') ++ ['='])).length % 4 =
          1 then none
       else atobLoop (stripAtobPadding ((btoa data).filter (· ≠ '=') ++ ['=']))
         0 0) from rfl]
    rw [stripAtob_pad1 _ hnoeq (by omega)]
    rw [if_neg (by omega)]
    exact atob_body data h 0

/-! ## Helper lemmas about the prefix encoders and converters -/

theorem encodeZ_eq (bytes : List Nat) :
    encodeCIDWithPrefixZ bytes = 'z' :: base58BitcoinEncode bytes := by
  unfold encodeCIDWithPrefixZ
  split <;> rfl

theorem encodeU_eq (bytes : List Nat) :
    encodeCIDWithPrefixU bytes = 'u' :: base64urlEncode bytes := by
  unfold encodeCIDWithPrefixU
  split <;> rfl

theorem encodeB_eq (bytes : List Nat) :
    encodeCIDWithPrefixB bytes = 'b' :: jsToLowerStr (base32rfcEncode bytes) := by
  unfold encodeCIDWithPrefixB
  split <;> rfl

theorem b32_upper_lower (data : List Nat) :
    jsToUpperStr (jsToLowerStr (base32rfcEncode data)) = base32rfcEncode data := by
  have hkey : ∀ d, d < 32 →
      jsToUpperChar (jsToLowerChar (BASE32_ALPHABET.getD d 'A')) =
        BASE32_ALPHABET.getD d 'A' := by decide
  unfold jsToUpperStr jsToLowerStr
  rw [List.map_map]
  rw [show base32rfcEncode data =
    (base32EncodeLoopD data 0 0).map (fun d => BASE32_ALPHABET.getD d 'A') from rfl]
  rw [List.map_map]
  apply List.map_congr_left
  intro d hd
  exact hkey d (base32EncodeLoopD_lt data 0 0 d hd)

theorem stripEq_b32 (data : List Nat) :
    stripTrailingEq (base32rfcEncode data) = base32rfcEncode data := by
  have hne : ∀ ch ∈ (base32rfcEncode data).reverse, ch ≠ '=' := by
    intro ch hch
    have hch2 : ch ∈ base32rfcEncode data := List.mem_reverse.mp hch
    rw [show base32rfcEncode data = (base32EncodeLoopD data 0 0).map
      (fun d => BASE32_ALPHABET.getD d 'A') from rfl] at hch2
    rcases List.mem_map.mp hch2 with ⟨d, hd, rfl⟩
    have hd32 : d < 32 := base32EncodeLoopD_lt data 0 0 d hd
    have hgetne : ∀ e, e < 32 → BASE32_ALPHABET.getD e 'A' ≠ '=' := by decide
    exact hgetne d hd32
  unfold stripTrailingEq
  cases hc : (base32rfcEncode data).reverse with
  | nil =>
    have : base32rfcEncode data = [] := by simpa using congrArg List.reverse hc
    simp [this]
  | cons c tail =>
    have hcne : c ≠ '=' := hne c (by rw [hc]; simp)
    rw [List.dropWhile_cons_of_neg (by simpa using hcne), ← hc, List.reverse_reverse]

theorem dropWhile_zero_head (c : List Nat) (h : c.head? ≠ some 0) :
    c.dropWhile (· = 0) = c := by
  cases c with
  | nil => rfl
  | cons x xs =>
    have hx : ¬ (x = 0) := by
      intro hx0
      exact h (by rw [hx0]; rfl)
    rw [List.dropWhile_cons_of_neg (by simpa using hx)]

theorem jsToUpperStr_no_lower (s : List Char) (h : s.any isLowerAlpha = false) :
    jsToUpperStr s = s := by
  unfold jsToUpperStr
  have := List.any_eq_false.mp h
  conv_rhs => rw [← List.map_id s]
  apply List.map_congr_left
  intro ch hch
  unfold jsToUpperChar
  rw [if_neg (by simpa using this ch hch)]
  rfl

/-! ## Claim theorems -/

set_option maxRecDepth 4000

/-- C1 counterexample: assembling a CID with a 33-byte multihash and size
1024 yields a 36-byte buffer ending in `[0x00, 0x04]`, not the 38-byte
buffer ending in `[0x00, 0x04, 0x00, 0x00]` asserted by the claim — the
size field is not padded to 4 bytes. -/
theorem c1_counterexample :
    (generateCIDFromMHash 38 (List.replicate 33 0) 1024).length = 36 ∧
    (generateCIDFromMHash 38 (List.replicate 33 0) 1024).length ≠ 38 := by
  decide

/-- C1 (amended): for every type byte, 33-byte multihash and size,
`generateCIDFromMHash` stores the size as the minimal little-endian byte
sequence produced by `numToBuf` (at most 4 bytes, not padded), so the CID
length is `34 + (numToBuf size 4).length`; with size 1024 the result is the
36-byte buffer `typeByte :: mHash ++ [0x00, 0x04]`. -/
theorem c1_amended : ∀ (t : Nat) (m : List Nat) (s : Int), m.length = 33 →
    (generateCIDFromMHash t m s).length = 34 + (numToBuf s 4).length ∧
    generateCIDFromMHash t m 1024 = t % 256 :: (m ++ [0, 4]) := by
  intro t m s hm
  constructor
  · simp [generateCIDFromMHash, hm]
    omega
  · rw [show generateCIDFromMHash t m 1024 =
      t % 256 :: (m ++ numToBuf 1024 4) from rfl]
    rw [show numToBuf 1024 4 = [0, 4] from by decide]

theorem c1_witness :
    (List.replicate 33 0).length = 33 ∧
    ((generateCIDFromMHash 38 (List.replicate 33 0) 5).length =
      34 + (numToBuf 5 4).length ∧
     generateCIDFromMHash 38 (List.replicate 33 0) 1024 =
      38 % 256 :: (List.replicate 33 0 ++ [0, 4])) :=
  ⟨by decide, c1_amended 38 (List.replicate 33 0) 5 (by decide)⟩

/-- C2 counterexample: the byte sequence `[0]` does not round-trip through
base58 — `base58BitcoinEncode [0]` is the empty string (no leading `'1'` is
emitted for the zero byte) and decoding it returns `[]`, not `[0]`. -/
theorem c2_counterexample :
    base58BitcoinDecode (base58BitcoinEncode [0]) = some [] ∧
    base58BitcoinDecode (base58BitcoinEncode [0]) ≠ some [0] := by
  decide

/-- C2 (amended): for every byte sequence, decoding the base58 encoding
returns the input with its leading zero bytes removed; the round-trip is
exact precisely when the input has no leading zero byte.  The encoder does
not map leading zero bytes to `'1'` symbols. -/
theorem c2_amended : ∀ b : List Nat, (∀ x ∈ b, x < 256) →
    base58BitcoinDecode (base58BitcoinEncode b) = some (b.dropWhile (· = 0)) :=
  base58_roundtrip

theorem c2_witness :
    (∀ x ∈ [0, 7, 255], x < 256) ∧
    base58BitcoinDecode (base58BitcoinEncode [0, 7, 255]) =
      some ([0, 7, 255].dropWhile (· = 0)) :=
  ⟨by decide, c2_amended [0, 7, 255] (by decide)⟩

/-- C4 counterexample: a 36-byte buffer is shorter than 38 bytes, yet
`extractMHashFromCID` returns a 33-byte result instead of failing with a
`MalformedCID` error. -/
theorem c4_counterexample :
    extractMHashFromCID (List.replicate 36 0) = some (List.replicate 33 0) := by
  decide

/-- C4 (amended): `extractMHashFromCID` never raises a `MalformedCID` error.
For inputs of length at least 34 — including lengths 34–37, below the full
38-byte layout — it returns the 33 bytes following the type byte; for
shorter inputs its search loop never terminates (embedded as `none`); and on
every assembled CID it recovers the multihash. -/
theorem c4_amended : ∀ (t : Nat) (m : List Nat) (s : Int) (cid : List Nat),
    m.length = 33 →
    (34 ≤ cid.length → extractMHashFromCID cid = some ((cid.drop 1).take 33)) ∧
    (cid.length < 34 → extractMHashFromCID cid = none) ∧
    extractMHashFromCID (generateCIDFromMHash t m s) = some m := by
  intro t m s cid hm
  refine ⟨?_, ?_, ?_⟩
  · intro h
    unfold extractMHashFromCID
    rw [if_pos h]
  · intro h
    unfold extractMHashFromCID
    rw [if_neg (by omega)]
  · unfold extractMHashFromCID
    rw [if_pos (by simp [generateCIDFromMHash, hm])]
    rw [show generateCIDFromMHash t m s = t % 256 :: (m ++ numToBuf s 4) from rfl]
    rw [List.drop_succ_cons, List.drop_zero]
    congr 1
    rw [← hm, List.take_left]

theorem c4_witness :
    (List.replicate 33 7).length = 33 ∧
    ((34 ≤ (List.replicate 36 0 : List Nat).length →
      extractMHashFromCID (List.replicate 36 0) =
        some (((List.replicate 36 0 : List Nat).drop 1).take 33)) ∧
     ((List.replicate 36 0 : List Nat).length < 34 →
      extractMHashFromCID (List.replicate 36 0) = none) ∧
     extractMHashFromCID (generateCIDFromMHash 38 (List.replicate 33 7) 9) =
      some (List.replicate 33 7)) :=
  ⟨by decide, c4_amended 38 (List.replicate 33 7) 9 (List.replicate 36 0) (by decide)⟩

/-- C5 counterexample: assembling a CID with declared size 0 produces a
34-byte buffer whose size field is empty, and `extractRawSizeFromCID` then
throws (`Buffer.readIntLE` out of range, embedded as `none`) instead of
returning the integer 0. -/
theorem c5_counterexample :
    extractRawSizeFromCID (generateCIDFromMHash 38 (List.replicate 33 0) 0) =
      none := by
  decide

/-- C5 (amended): size round-trips fail at both boundaries.  For size 0 the
assembler emits an empty size field and extraction throws (`none`); for size
`2^32 - 1` the assembler emits `[0xFF, 0xFF, 0xFF, 0xFF]` and the signed
little-endian read returns `-1`, not `2^32 - 1`. -/
theorem c5_amended : ∀ (t : Nat) (m : List Nat), m.length = 33 →
    extractRawSizeFromCID (generateCIDFromMHash t m 0) = none ∧
    extractRawSizeFromCID (generateCIDFromMHash t m (2 ^ 32 - 1)) = some (-1) := by
  intro t m hm
  constructor
  · rw [show generateCIDFromMHash t m 0 = t % 256 :: (m ++ numToBuf 0 4) from rfl]
    rw [show numToBuf 0 4 = [] from rfl]
    unfold extractRawSizeFromCID
    rw [List.drop_succ_cons]
    rw [show (33 : Nat) = m.length from hm.symm, List.append_nil, List.drop_length]
    rfl
  · rw [show generateCIDFromMHash t m (2 ^ 32 - 1) =
      t % 256 :: (m ++ numToBuf (2 ^ 32 - 1) 4) from rfl]
    rw [show numToBuf (2 ^ 32 - 1) 4 = [255, 255, 255, 255] from by decide]
    unfold extractRawSizeFromCID
    rw [List.drop_succ_cons]
    rw [show (33 : Nat) = m.length from hm.symm, List.drop_left]
    decide

theorem c5_witness :
    (List.replicate 33 0).length = 33 ∧
    (extractRawSizeFromCID (generateCIDFromMHash 38 (List.replicate 33 0) 0) =
      none ∧
     extractRawSizeFromCID (generateCIDFromMHash 38 (List.replicate 33 0)
      (2 ^ 32 - 1)) = some (-1)) :=
  ⟨by decide, c5_amended 38 (List.replicate 33 0) (by decide)⟩

/-- C6 counterexample: the string `"aa"` consists of characters outside the
32-symbol RFC 4648 alphabet (which is uppercase), yet `base32rfcDecode`
returns the byte `[255]` instead of failing with an `InvalidAlphabet`
error — `indexOf` yields `-1` and the decoder folds it into the bit
accumulator without any validation. -/
theorem c6_counterexample : base32rfcDecode ['a', 'a'] = [255] := by
  decide

/-- C6 (amended): `base32rfcDecode` never fails: characters outside the
alphabet are mapped to index `-1` and still produce bytes.  For valid
strings the decoder is the inverse of the encoder, with trailing partial
bits that do not form a full byte discarded, so every byte sequence
round-trips exactly. -/
theorem c6_amended : ∀ data : List Nat, (∀ x ∈ data, x < 256) →
    base32rfcDecode (base32rfcEncode data) = data :=
  base32_roundtrip

theorem c6_witness :
    (∀ x ∈ [1, 2, 3], x < 256) ∧
    base32rfcDecode (base32rfcEncode [1, 2, 3]) = [1, 2, 3] :=
  ⟨by decide, c6_amended [1, 2, 3] (by decide)⟩

/-- C7 counterexample: the string `"z2"` starts with `'z'` but has length
2 < 53 — it matches neither shape of the heuristic — yet
`decodeCIDWithPrefixZ` silently strips the `'z'` and decodes the remainder,
returning `[1]`. -/
theorem c7_counterexample : decodeCIDWithPrefixZ ['z', '2'] = some [1] := by
  decide

/-- C7 (amended): the length heuristic is applied by `getS5zBytesDecoded`
exactly as claimed — including returning `undefined` (`none`) on strings
matching neither shape — but `decodeCIDWithPrefixZ` applies only the prefix
test: it strips and decodes every string starting with `'z'` regardless of
length and decodes every other string whole. -/
theorem c7_amended : ∀ s : List Char,
    (s.head? = some 'z' → 53 ≤ s.length →
      getS5zBytesDecoded s = base58BitcoinDecode (s.drop 1) ∧
      decodeCIDWithPrefixZ s = base58BitcoinDecode (s.drop 1)) ∧
    (s.head? ≠ some 'z' → s.length ≤ 52 →
      getS5zBytesDecoded s = base58BitcoinDecode s ∧
      decodeCIDWithPrefixZ s = base58BitcoinDecode s) ∧
    (s.head? = some 'z' → s.length < 53 →
      getS5zBytesDecoded s = none ∧
      decodeCIDWithPrefixZ s = base58BitcoinDecode (s.drop 1)) ∧
    (s.head? ≠ some 'z' → 52 < s.length →
      getS5zBytesDecoded s = none ∧
      decodeCIDWithPrefixZ s = base58BitcoinDecode s) := by
  intro s
  refine ⟨fun h1 h2 => ⟨?_, ?_⟩, fun h1 h2 => ⟨?_, ?_⟩,
    fun h1 h2 => ⟨?_, ?_⟩, fun h1 h2 => ⟨?_, ?_⟩⟩
  · unfold getS5zBytesDecoded
    rw [if_pos ⟨h1, h2⟩]
  · unfold decodeCIDWithPrefixZ
    rw [if_pos h1]
  · unfold getS5zBytesDecoded
    rw [if_neg (by tauto), if_pos ⟨h1, h2⟩]
  · unfold decodeCIDWithPrefixZ
    rw [if_neg h1, if_pos h1]
  · unfold getS5zBytesDecoded
    rw [if_neg (by omega), if_neg (by tauto)]
  · unfold decodeCIDWithPrefixZ
    rw [if_pos h1]
  · unfold getS5zBytesDecoded
    rw [if_neg (by tauto), if_neg (by omega)]
  · unfold decodeCIDWithPrefixZ
    rw [if_neg h1, if_pos h1]

theorem c7_witness :
    getS5zBytesDecoded ['z', '2'] = none ∧
    decodeCIDWithPrefixZ ['z', '2'] = base58BitcoinDecode (['z', '2'].drop 1) :=
  (c7_amended ['z', '2']).2.2.1 rfl (by decide)

/-- C8 counterexample: on the empty multihash `extractB3hashFromMHash`
returns the empty buffer (`[].slice(1)` is `[]`) — it does not fail with a
`MalformedMultihash` error. -/
theorem c8_counterexample : extractB3hashFromMHash [] = ([] : List Nat) := rfl

/-- C8 (amended): `extractB3hashFromMHash` returns everything after the
first byte as the digest (it does not return the hash-function id, and it
inverts `generateMHashFromB3hash`); on empty input it returns the empty
buffer without raising any error. -/
theorem c8_amended :
    (∀ (v : Nat) (b3 : List Nat),
      extractB3hashFromMHash (generateMHashFromB3hash v b3) = b3) ∧
    (∀ m : List Nat, extractB3hashFromMHash m = m.drop 1) := by
  exact ⟨fun v b3 => rfl, fun m => rfl⟩

/-- C9: each prefix encoder returns its prefix character followed by the
corresponding encoding of the buffer, for every input length — the
length-38 test in `encodeCIDWithPrefixZ`/`U`/`B` has identical branches and
no observable effect, and no input is ever rejected on encode. -/
theorem c9_encoders : ∀ bytes : List Nat,
    encodeCIDWithPrefixZ bytes = 'z' :: base58BitcoinEncode bytes ∧
    encodeCIDWithPrefixU bytes = 'u' :: base64urlEncode bytes ∧
    encodeCIDWithPrefixB bytes = 'b' :: jsToLowerStr (base32rfcEncode bytes) :=
  fun bytes => ⟨encodeZ_eq bytes, encodeU_eq bytes, encodeB_eq bytes⟩

/-- C10: `decodeCIDWithPrefixB` applies no length threshold — every string
whose first character is `'b'` (and which contains a lowercase letter) has
its first character stripped before uppercasing and base32-decoding; as a
consequence there is a 38-byte buffer whose bare lowercase base32 body
begins with `'b'` and which therefore does not decode back to itself. -/
theorem c10_decodeB :
    (∀ cid : List Char, cid.head? = some 'b' →
      (∃ ch ∈ cid, isLowerAlpha ch) →
      decodeCIDWithPrefixB cid = base32rfcDecode (jsToUpperStr (cid.drop 1))) ∧
    (∃ c : List Nat, c.length = 38 ∧ (∀ x ∈ c, x < 256) ∧
      (jsToLowerStr (base32rfcEncode c)).head? = some 'b' ∧
      decodeCIDWithPrefixB (jsToLowerStr (base32rfcEncode c)) ≠ c) := by
  constructor
  · intro cid h1 _
    cases cid with
    | nil => simp at h1
    | cons c0 rest =>
      have hc0 : c0 = 'b' := by simpa using h1
      subst hc0
      have e1 : decodeBStage1 ('b' :: rest) = 'b' :: rest := by
        unfold decodeBStage1
        rw [if_neg]
        rintro ⟨hB, _⟩
        simp at hB
      have e2 : decodeBStage2 ('b' :: rest) = rest := by
        unfold decodeBStage2
        rw [if_pos ⟨rfl, by
          rw [List.any_cons, show isLowerAlpha 'b' = true from rfl]
          rfl⟩]
        rfl
      unfold decodeCIDWithPrefixB
      rw [e1, e2]
      rw [show ('b' :: rest).drop 1 = rest from rfl]
      unfold decodeBStage3
      by_cases hany : rest.any isLowerAlpha
      · rw [if_pos hany]
      · rw [if_neg hany]
        rw [jsToUpperStr_no_lower rest (by simpa using hany)]
  · refine ⟨8 :: List.replicate 37 0, by decide, by decide, by decide, by decide⟩

theorem c10_witness :
    decodeCIDWithPrefixB ['b', 'a'] =
      base32rfcDecode (jsToUpperStr (['b', 'a'].drop 1)) :=
  c10_decodeB.1 ['b', 'a'] rfl ⟨'b', by decide, by decide⟩

/-- C3 counterexample: for the 38-byte all-zero CID, converting its
`'z'`-prefixed encoding with `convertB58btcToB32rfcCid` yields `"b"` (the
leading zero bytes are lost in the base58 round-trip), while its direct
`'b'`-prefixed encoding is `"b"` followed by 61 `'a'` symbols. -/
theorem c3_counterexample :
    convertB58btcToB32rfcCid (encodeCIDWithPrefixZ (List.replicate 38 0)) ≠
      some (encodeCIDWithPrefixB (List.replicate 38 0)) := by
  decide

/-- C3 (amended): for every 38-byte CID the four conversions whose source
is the base32 or base64url form equal decode-then-re-encode exactly; the
two conversions whose source is the base58 (`'z'`) form do so exactly when
the CID's first byte is nonzero (base58 encoding drops leading zero
bytes). -/
theorem c3_amended : ∀ c : List Nat, c.length = 38 → (∀ x ∈ c, x < 256) →
    convertB32rfcToB58btcCid (encodeCIDWithPrefixB c) = encodeCIDWithPrefixZ c ∧
    convertB32rfcToB64urlCid (encodeCIDWithPrefixB c) = encodeCIDWithPrefixU c ∧
    convertB64urlToB58btcCid (encodeCIDWithPrefixU c) =
      some (encodeCIDWithPrefixZ c) ∧
    convertB64urlToB32rfcCid (encodeCIDWithPrefixU c) =
      some (encodeCIDWithPrefixB c) ∧
    (c.head? ≠ some 0 →
      convertB58btcToB32rfcCid (encodeCIDWithPrefixZ c) =
        some (encodeCIDWithPrefixB c) ∧
      convertB58btcToB64urlCid (encodeCIDWithPrefixZ c) =
        some (encodeCIDWithPrefixU c)) := by
  intro c _ h256
  have hb32 := base32_roundtrip c h256
  have hb64 := base64url_roundtrip c h256
  have hb58 := base58_roundtrip c h256
  have hul := b32_upper_lower c
  have hstrip := stripEq_b32 c
  refine ⟨?_, ?_, ?_, ?_, fun h0 => ⟨?_, ?_⟩⟩
  · rw [encodeB_eq]
    unfold convertB32rfcToB58btcCid
    rw [show ('b' :: jsToLowerStr (base32rfcEncode c)).drop 1 =
      jsToLowerStr (base32rfcEncode c) from rfl]
    rw [hul, hb32, encodeZ_eq]
  · rw [encodeB_eq]
    unfold convertB32rfcToB64urlCid
    rw [show ('b' :: jsToLowerStr (base32rfcEncode c)).drop 1 =
      jsToLowerStr (base32rfcEncode c) from rfl]
    rw [hul, hb32, encodeU_eq]
  · rw [encodeU_eq]
    unfold convertB64urlToB58btcCid
    rw [show ('u' :: base64urlEncode c).drop 1 = base64urlEncode c from rfl]
    rw [hb64]
    show some ('z' :: base58BitcoinEncode c) = some (encodeCIDWithPrefixZ c)
    rw [encodeZ_eq]
  · rw [encodeU_eq]
    unfold convertB64urlToB32rfcCid
    rw [show ('u' :: base64urlEncode c).drop 1 = base64urlEncode c from rfl]
    rw [hb64]
    show some ('b' :: jsToLowerStr (stripTrailingEq (base32rfcEncode c))) =
      some (encodeCIDWithPrefixB c)
    rw [hstrip, encodeB_eq]
  · rw [encodeZ_eq]
    unfold convertB58btcToB32rfcCid
    rw [show ('z' :: base58BitcoinEncode c).drop 1 = base58BitcoinEncode c from rfl]
    rw [hb58, dropWhile_zero_head c h0]
    show some ('b' :: jsToLowerStr (stripTrailingEq (base32rfcEncode c))) =
      some (encodeCIDWithPrefixB c)
    rw [hstrip, encodeB_eq]
  · rw [encodeZ_eq]
    unfold convertB58btcToB64urlCid
    rw [show ('z' :: base58BitcoinEncode c).drop 1 = base58BitcoinEncode c from rfl]
    rw [hb58, dropWhile_zero_head c h0]
    show some ('u' :: base64urlEncode c) = some (encodeCIDWithPrefixU c)
    rw [encodeU_eq]

theorem c3_witness :
    (1 :: List.replicate 37 0 : List Nat).length = 38 ∧
    (∀ x ∈ (1 :: List.replicate 37 0 : List Nat), x < 256) ∧
    convertB32rfcToB58btcCid (encodeCIDWithPrefixB (1 :: List.replicate 37 0)) =
      encodeCIDWithPrefixZ (1 :: List.replicate 37 0) ∧
    convertB32rfcToB64urlCid (encodeCIDWithPrefixB (1 :: List.replicate 37 0)) =
      encodeCIDWithPrefixU (1 :: List.replicate 37 0) ∧
    convertB64urlToB58btcCid (encodeCIDWithPrefixU (1 :: List.replicate 37 0)) =
      some (encodeCIDWithPrefixZ (1 :: List.replicate 37 0)) ∧
    convertB64urlToB32rfcCid (encodeCIDWithPrefixU (1 :: List.replicate 37 0)) =
      some (encodeCIDWithPrefixB (1 :: List.replicate 37 0)) ∧
    convertB58btcToB32rfcCid (encodeCIDWithPrefixZ (1 :: List.replicate 37 0)) =
      some (encodeCIDWithPrefixB (1 :: List.replicate 37 0)) ∧
    convertB58btcToB64urlCid (encodeCIDWithPrefixZ (1 :: List.replicate 37 0)) =
      some (encodeCIDWithPrefixU (1 :: List.replicate 37 0)) :=
  ⟨by decide, by decide,
    (c3_amended (1 :: List.replicate 37 0) (by decide) (by decide)).1,
    (c3_amended (1 :: List.replicate 37 0) (by decide) (by decide)).2.1,
    (c3_amended (1 :: List.replicate 37 0) (by decide) (by decide)).2.2.1,
    (c3_amended (1 :: List.replicate 37 0) (by decide) (by decide)).2.2.2.1,
    ((c3_amended (1 :: List.replicate 37 0) (by decide) (by decide)).2.2.2.2
      (by decide)).1,
    ((c3_amended (1 :: List.replicate 37 0) (by decide) (by decide)).2.2.2.2
      (by decide)).2⟩
